import Mathlib

/-!
# Verification of the wifi-heatmap sample store and interpolation core

Shallow embedding of `src/wifi-heatmap.py`.

The Python code keeps all state in insertion-ordered dictionaries
(`dict` subclass `PointSignals`, and `Signals._signals`).  We model a
Python `dict` as an association list with the exact CPython semantics:
assignment to an existing key updates the value in place (keeping the
key's position in the iteration order), assignment to a fresh key
appends at the end.

The numeric interpolation stage (`scipy.interpolate.Rbf` with the
linear kernel) is modelled in exact real arithmetic: `scipy.linalg.solve`
raises `LinAlgError` exactly on a singular system matrix and otherwise
returns the unique solution of the linear system.
-/

set_option autoImplicit false

namespace WifiHeatmap

/-! ## Definitions: Python dict as an ordered association list -/

section DictDefs

variable {α : Type} {β : Type} [DecidableEq α]

/-- CPython `d[k] = v`: replace in place if the key is present, else append. -/
def dictInsert (k : α) (v : β) : List (α × β) → List (α × β)
  | [] => [(k, v)]
  | e :: rest => if e.1 = k then (k, v) :: rest else e :: dictInsert k v rest

/-- CPython `d[k]` / `k in d`: first (and, for lists built by
`dictInsert`, only) binding of `k`. -/
def dictGet (k : α) : List (α × β) → Option β
  | [] => none
  | e :: rest => if e.1 = k then some e.2 else dictGet k rest

end DictDefs

/-! ## Definitions: string comparison

Python's `sorted` compares strings lexicographically by Unicode code
point, which coincides with Mathlib's linear order on `String`.  The
library's `Decidable` instance for `String` comparison is implemented
with byte iterators and does not reduce in the kernel, so we give a
structurally recursive comparison and (below, in the theorems section)
prove it equivalent. -/

section StringOrderDefs

/-- Code-point lexicographic strict comparison on character lists. -/
def lexLt : List Char → List Char → Bool
  | _, [] => false
  | [], _ :: _ => true
  | a :: as, b :: bs => if a < b then true else if b < a then false else lexLt as bs

/-- Kernel-reducible strict comparison of strings (code-point order). -/
def strLtb (a b : String) : Bool := lexLt a.toList b.toList

/-- The comparison used to sort dict items by key: `a.1 ≤ b.1`,
phrased through `strLtb` so that it evaluates in the kernel. -/
def keyLe {β : Type} (a b : String × β) : Prop := strLtb b.1 a.1 = false

instance keyLeDecidable {β : Type} : DecidableRel (@keyLe β) := fun a b =>
  inferInstanceAs (Decidable (strLtb b.1 a.1 = false))

/-- Python `sorted(items, key=itemgetter(0))`: sort ascending by first
component.  The lists this is applied to in the program always have
pairwise-distinct keys (they are `dict.items()`), so the result is the
unique permutation sorted by key and any correct sort models Python's
stable sort. -/
def sortByKey {β : Type} (l : List (String × β)) : List (String × β) :=
  List.insertionSort keyLe l

end StringOrderDefs

/-! ## Definitions: the sample store (`Signal`, `PointSignals`, `Signals`) -/

section StoreDefs

/-- `Signal = collections.namedtuple('Signal', ['ssid', 'bssid', 'rssi'])`
(`src/wifi-heatmap.py:52`).  `rssi` is a signed integer (dBm). -/
structure Signal where
  ssid : String
  bssid : String
  rssi : ℤ
deriving DecidableEq, Repr

/-- Integer pixel coordinates of a sample point. -/
abbrev Pos := ℤ × ℤ

/-- `PointSignals(dict)`: all signals for one point, keyed by bssid
(`src/wifi-heatmap.py:54`). -/
abbrev PointSignals := List (String × Signal)

/-- `PointSignals.add_signal` (`src/wifi-heatmap.py:57`): `self[s.bssid] = s`. -/
def add_signal (ps : PointSignals) (s : Signal) : PointSignals :=
  dictInsert s.bssid s ps

/-- `PointSignals.get_all_rssi` (`src/wifi-heatmap.py:66`): one entry per
requested bssid, `None` (here `none`) for a missing bssid. -/
def get_all_rssi (ps : PointSignals) (bssids : List String) : List (Option ℤ) :=
  bssids.map fun b => (dictGet b ps).map Signal.rssi

/-- `Signals._signals`: dict from position to `PointSignals`
(`src/wifi-heatmap.py:77`). -/
abbrev Signals := List (Pos × PointSignals)

/-- `Signals.add_point_signals` (`src/wifi-heatmap.py:80`):
`self._signals[point] = point_signals`. -/
def add_point_signals (st : Signals) (point : Pos) (point_signals : PointSignals) :
    Signals :=
  dictInsert point point_signals st

/-- The `seen` dict built inside `Signals.get_all_bssids`
(`src/wifi-heatmap.py:86`-`90`): iterate the stored points in dict
order, then each point's signals in dict order, doing
`seen[signal.bssid] = signal.ssid`. -/
def seenFold (st : Signals) : List (String × String) :=
  st.foldl
    (fun seen pps =>
      pps.2.foldl (fun s2 e => dictInsert e.2.bssid e.2.ssid s2) seen)
    []

/-- `Signals.get_all_bssids` (`src/wifi-heatmap.py:86`):
`sorted(seen.items(), key=operator.itemgetter(0))`. -/
def get_all_bssids (st : Signals) : List (String × String) :=
  sortByKey (seenFold st)

/-- The label-selection rule the `seen` dict implements for one key:
scanning the stored points in dict-iteration order (and each point's
signals in dict order), the ssid of the LAST signal whose bssid is `b`
wins; `none` when `b` is never observed.  Proved below to be exactly
the label `get_all_bssids` pairs with `b`. -/
def lastLabelIn (st : Signals) (b : String) : Option String :=
  st.foldl
    (fun r pps =>
      pps.2.foldl (fun a s => if s.2.bssid = b then some s.2.ssid else a) r)
    none

/-- `Signals.write_csv` (`src/wifi-heatmap.py:93`).  We model the CSV at
the level of its cells: the header's emitter columns
(`"%s;%s" % (bssid, ssid)`) and, per stored position, the coordinate
pair plus one optional integer per column (`csv.writer` writes `None`
as an empty field, and integer cells round-trip exactly through their
decimal text; quoting of separators inside fields is handled by the
`csv` module).  The constant `X`/`Y` coordinate columns are carried as
the `Pos` component. -/
def write_csv (st : Signals) : List String × List (Pos × List (Option ℤ)) :=
  let bssids := get_all_bssids st
  (bssids.map fun b => b.1 ++ ";" ++ b.2,
   st.map fun pps => (pps.1, get_all_rssi pps.2 (bssids.map Prod.fst)))

/-- Python `k.split(';', 1)` on a character list: `none` when there is
no `';'` (in which case the source's tuple unpacking raises). -/
def splitFirstAux : List Char → Option (List Char × List Char)
  | [] => none
  | c :: rest =>
      if c = ';' then some ([], rest)
      else (splitFirstAux rest).map fun q => (c :: q.1, q.2)

/-- Python `k.split(';', 1)` (`src/wifi-heatmap.py:108`), as the pair of
the text before the first `';'` and everything after it. -/
def splitFirst (s : String) : Option (String × String) :=
  (splitFirstAux s.toList).map fun q => (String.mk q.1, String.mk q.2)

/-- The row dict built by `csv.DictReader`: header names mapped to row
cells, in header order (duplicate headers collapse like dict keys do). -/
def dictRowOf (headers : List String) (cells : List (Option ℤ)) :
    List (String × Option ℤ) :=
  (headers.zip cells).foldl (fun acc kv => dictInsert kv.1 kv.2 acc) []

/-- The body of the row loop in `Signals.read_csv`
(`src/wifi-heatmap.py:106`-`111`): for each remaining column,
`bssid, ssid = k.split(';', 1)` (failing if the header has no `';'`),
and for a non-empty cell `p.add_signal(Signal(ssid, bssid, int(v)))`. -/
def parseRow (row : List (String × Option ℤ)) : Option PointSignals :=
  row.foldlM
    (fun ps kv =>
      (splitFirst kv.1).map fun q =>
        match kv.2 with
        | none => ps
        | some v => add_signal ps { ssid := q.2, bssid := q.1, rssi := v })
    []

/-- `Signals.read_csv` (`src/wifi-heatmap.py:102`) applied to a fresh
store: each row becomes a position plus a parsed `PointSignals`,
inserted with `add_point_signals`. -/
def read_csv (t : List String × List (Pos × List (Option ℤ))) : Option Signals :=
  t.2.foldlM
    (fun st row =>
      (parseRow (dictRowOf t.1 row.2)).map fun ps => add_point_signals st row.1 ps)
    []

/-- The observable mapping `position -> {emitter_key: Signal}`. -/
def content2 (st : Signals) (p : Pos) (b : String) : Option Signal :=
  (dictGet p st).bind (dictGet b)

/-- The observable mapping `position -> {emitter_key: strength}`. -/
def content (st : Signals) (p : Pos) (b : String) : Option ℤ :=
  (content2 st p b).map Signal.rssi

/-- A point sample assembled by repeated `add_signal`, the way every
`PointSignals` in the program is built (acquisition or CSV load). -/
def buildPoint (sigs : List Signal) : PointSignals :=
  sigs.foldl add_signal []

/-- A store assembled by a sequence of `add_point_signals` insertions
starting from the empty session store. -/
def buildStore (ops : List (Pos × List Signal)) : Signals :=
  ops.foldl (fun st op => add_point_signals st op.1 (buildPoint op.2)) []

/-- The point that `read_csv`'s row loop reconstructs from the
serialized row of a stored point `ps` under emitter columns `bs`
(helper used to state and prove the round-trip lemmas; proved equal to
what `parseRow` computes). -/
def parsedPoint (bs : List (String × String)) (ps : PointSignals) : PointSignals :=
  bs.filterMap fun b => (dictGet b.1 ps).map fun sig =>
    (b.1, { ssid := b.2, bssid := b.1, rssi := sig.rssi })

/-- Structural invariants every store built by the program satisfies:
positions are unique dict keys, each point's bssid keys are unique, and
each signal is filed under its own bssid. -/
def StoreWF (st : Signals) : Prop :=
  (st.map Prod.fst).Nodup ∧
    ∀ e ∈ st, (e.2.map Prod.fst).Nodup ∧ ∀ s ∈ e.2, s.2.bssid = s.1

/-- No emitter key appearing in the store contains a `';'`. -/
def NoSemiKeys (st : Signals) : Prop :=
  ∀ e ∈ st, ∀ s ∈ e.2, (';' : Char) ∉ s.1.toList

instance decidableStoreWF (st : Signals) : Decidable (StoreWF st) := by
  unfold StoreWF
  infer_instance

instance decidableNoSemiKeys (st : Signals) : Decidable (NoSemiKeys st) := by
  unfold NoSemiKeys
  infer_instance

end StoreDefs

/-! ## Definitions: the interpolation stage (`App.show_heatmap`) -/

noncomputable section InterpDefs

open Classical

/-- Euclidean distance between two points of the plane, as used by
`scipy.interpolate.Rbf` (its default `'euclidean'` norm). -/
def edist2 (p q : ℝ × ℝ) : ℝ := Real.sqrt ((p.1 - q.1) ^ 2 + (p.2 - q.2) ^ 2)

/-- The RBF system matrix for the linear kernel `phi(r) = r`: the
pairwise distances of the sample points (`Rbf(..., function='linear')`
with the default `smooth=0`). -/
def rbfA (samples : List ((ℝ × ℝ) × ℝ)) :
    Matrix (Fin samples.length) (Fin samples.length) ℝ :=
  Matrix.of fun i j => edist2 (samples.get i).1 (samples.get j).1

/-- Error vocabulary of the interpolation stage.  The code can fail
three ways inside `Rbf`: `valueError` (`np.amax` over an empty axis in
the default-`epsilon` computation, i.e. zero samples), `zeroDivision`
(`1.0/edges.size` in the default-`epsilon` computation when every
per-axis extent is zero, i.e. all sample positions coincide — this
happens before any matrix is built), and `illConditioned`
(`scipy.linalg.LinAlgError` from `linalg.solve` on a singular system
matrix; the spec's `IllConditionedInput`).  `unknownEmitter` is the
spec's `UnknownEmitterSelected`, listed so claims about it can be
stated. -/
inductive InterpError where
  | illConditioned
  | zeroDivision
  | valueError
  | unknownEmitter
deriving DecidableEq, Repr

/-- The degenerate-extent condition of `Rbf`'s default-`epsilon`
computation: `edges = amax(xi, axis=1) - amin(xi, axis=1)` filtered by
`np.nonzero` is empty, i.e. every per-axis extent is zero — which for
2-D input means all sample positions coincide. -/
def allCoincident (samples : List ((ℝ × ℝ) × ℝ)) : Prop :=
  ∀ i j : Fin samples.length, (samples.get i).1 = (samples.get j).1

/-- `Rbf(x, y, z, function='linear')` plus evaluation
(`src/wifi-heatmap.py:281`-`282`), in exact arithmetic.  `Rbf.__init__`
unconditionally computes a default `epsilon` first:
`edges = amax(xi,axis=1) - amin(xi,axis=1); edges = edges[nonzero(edges)];`
`epsilon = power(prod(edges)/N, 1.0/edges.size)` — with zero samples
the `amax` raises `ValueError`, and with all positions coincident
(including N = 1) `1.0/edges.size` raises `ZeroDivisionError`, in both
cases before any matrix exists.  Otherwise the matrix is built (the
linear kernel ignores `epsilon`) and `scipy.linalg.solve` raises
`LinAlgError` exactly when it is singular, else returns the unique
solution `w = A⁻¹ z`; the interpolant is `f(q) = Σ_j w_j * |q - x_j|`. -/
def rbfInterpolate (samples : List ((ℝ × ℝ) × ℝ)) :
    Except InterpError ((ℝ × ℝ) → ℝ) :=
  if samples.length = 0 then Except.error InterpError.valueError
  else if allCoincident samples then Except.error InterpError.zeroDivision
  else if _h : (rbfA samples).det ≠ 0 then
    Except.ok fun q =>
      ∑ j, ((rbfA samples)⁻¹.mulVec fun i => (samples.get i).2) j *
        edist2 q (samples.get j).1
  else Except.error InterpError.illConditioned

/-- The sample-gathering loop in `App.show_heatmap`
(`src/wifi-heatmap.py:263`-`266`): every stored position whose point
contains the chosen bssid, paired with that signal's rssi, in store
order. -/
def collectSamples (st : Signals) (bssid : String) : List (Pos × ℤ) :=
  st.filterMap fun pps => (dictGet bssid pps.2).map fun sig => (pps.1, sig.rssi)

/-- `App.show_heatmap`'s interpolation stage (`src/wifi-heatmap.py:256`-
`282`): build the `x`, `y`, `z` arrays from the collected samples and
construct the linear-kernel RBF.  The source contains no
emitter-existence check before the `Rbf` construction. -/
def showHeatmapInterp (st : Signals) (bssid : String) :
    Except InterpError ((ℝ × ℝ) → ℝ) :=
  rbfInterpolate ((collectSamples st bssid).map fun s =>
    (((s.1.1 : ℝ), (s.1.2 : ℝ)), (s.2 : ℝ)))

end InterpDefs

/-! ## Definitions: contour banding (`App.plot_contour`) -/

section ContourDefs

/-- `np.arange(start, stop, step)` over the integers: for a positive
step, the `ceil((stop-start)/step)` values `start + k*step` below
`stop`. -/
def npArange (start stop step : ℤ) : List ℤ :=
  if 0 < step then
    (List.range (((stop - start + step - 1) / step).toNat)).map fun k =>
      start + step * (k : ℤ)
  else []

/-- The contour level list `np.append(np.arange(-85, -25, 10), [0])`
passed to `plt.contourf` (`src/wifi-heatmap.py:310`).  It is a fixed
constant: the field values are not consulted. -/
def plotContourLevels : List ℤ := npArange (-85) (-25) 10 ++ [0]

open Classical in
/-- Band classification of a value against an increasing level list,
per `plt.contourf` semantics with an explicit level list: filled band
`i` spans `[l_i, l_{i+1})`, the last band including its upper bound;
values outside `[l_0, l_m]` belong to no band (they are left
unfilled). -/
noncomputable def bandFrom (v : ℝ) : ℤ → List ℤ → Option ℕ
  | _, [] => none
  | lo, hi :: rest =>
      if (lo : ℝ) ≤ v ∧ (v < (hi : ℝ) ∨ (rest = [] ∧ v ≤ (hi : ℝ))) then some 0
      else (bandFrom v hi rest).map (· + 1)

/-- The band of value `v` for a level list. -/
noncomputable def bandOf (levels : List ℤ) (v : ℝ) : Option ℕ :=
  match levels with
  | [] => none
  | l0 :: rest => bandFrom v l0 rest

open Classical in
/-- Modelled from the spec's words for claim C9 (for comparison with
the code's banding): fixed thresholds `-85, -75, -65, -55, -45, -35`
and one open-ended band above `-35`. -/
noncomputable def specBandOf (v : ℝ) : Option ℕ :=
  if v < -85 then none
  else if v < -75 then some 0
  else if v < -65 then some 1
  else if v < -55 then some 2
  else if v < -45 then some 3
  else if v < -35 then some 4
  else some 5

end ContourDefs

/-! ## Definitions: spec-side notions used to state claims -/

section SpecDefs

/-- Modelled from the spec's words for claim C7 (for comparison with
the code's `get_all_bssids`): the label of the chronologically most
recent observation of bssid `b` over an insertion sequence. -/
def mostRecentLabel (ops : List (Pos × List Signal)) (b : String) : Option String :=
  ops.foldl
    (fun acc op =>
      op.2.foldl (fun a sig => if sig.bssid = b then some sig.ssid else a) acc)
    none

end SpecDefs

/-! ## Theorems: dictionary lemmas -/

section DictLemmas

variable {α : Type} {β : Type} [DecidableEq α]

@[simp] theorem dictGet_nil (k : α) : dictGet k ([] : List (α × β)) = none := rfl

@[simp] theorem dictGet_cons (k : α) (e : α × β) (l : List (α × β)) :
    dictGet k (e :: l) = if e.1 = k then some e.2 else dictGet k l := rfl

@[simp] theorem dictInsert_nil (k : α) (v : β) :
    dictInsert k v ([] : List (α × β)) = [(k, v)] := rfl

@[simp] theorem dictInsert_cons (k : α) (v : β) (e : α × β) (l : List (α × β)) :
    dictInsert k v (e :: l) =
      if e.1 = k then (k, v) :: l else e :: dictInsert k v l := rfl

theorem dictGet_dictInsert_self (k : α) (v : β) (l : List (α × β)) :
    dictGet k (dictInsert k v l) = some v := by
  induction l with
  | nil => simp
  | cons e rest ih =>
      by_cases h : e.1 = k <;> simp [h, ih]

theorem dictGet_dictInsert_ne {k k' : α} (h : k' ≠ k) (v : β) (l : List (α × β)) :
    dictGet k' (dictInsert k v l) = dictGet k' l := by
  induction l with
  | nil => simp [Ne.symm h]
  | cons e rest ih =>
      by_cases he : e.1 = k
      · simp [he, Ne.symm h]
      · simp [he, ih]

theorem dictInsert_dictInsert_self (k : α) (v₁ v₂ : β) (l : List (α × β)) :
    dictInsert k v₂ (dictInsert k v₁ l) = dictInsert k v₂ l := by
  induction l with
  | nil => simp
  | cons e rest ih =>
      by_cases h : e.1 = k <;> simp [h, ih]

theorem mem_keys_dictInsert {a k : α} (v : β) (l : List (α × β)) :
    a ∈ (dictInsert k v l).map Prod.fst ↔ a = k ∨ a ∈ l.map Prod.fst := by
  induction l with
  | nil => simp [eq_comm]
  | cons e rest ih =>
      by_cases h : e.1 = k
      · subst h
        simp [eq_comm]
      · simp only [dictInsert_cons, if_neg h, List.map_cons, List.mem_cons, ih]
        tauto

theorem nodupKeys_dictInsert (k : α) (v : β) {l : List (α × β)}
    (h : (l.map Prod.fst).Nodup) : ((dictInsert k v l).map Prod.fst).Nodup := by
  induction l with
  | nil => simp
  | cons e rest ih =>
      simp only [List.map_cons, List.nodup_cons] at h
      by_cases he : e.1 = k
      · subst he
        simpa using h
      · simp only [dictInsert_cons, if_neg he, List.map_cons, List.nodup_cons]
        refine ⟨fun hc => ?_, ih h.2⟩
        rcases (mem_keys_dictInsert v rest).1 hc with h1 | h1
        · exact he h1
        · exact h.1 h1

theorem dictInsert_of_not_mem_keys {k : α} (v : β) {l : List (α × β)}
    (h : k ∉ l.map Prod.fst) : dictInsert k v l = l ++ [(k, v)] := by
  induction l with
  | nil => simp
  | cons e rest ih =>
      simp only [List.map_cons, List.mem_cons] at h
      push_neg at h
      simp [Ne.symm h.1, ih h.2]

theorem mem_dictInsert {e : α × β} {k : α} {v : β} {l : List (α × β)}
    (h : e ∈ dictInsert k v l) : e = (k, v) ∨ e ∈ l := by
  induction l with
  | nil => simpa using h
  | cons e' rest ih =>
      by_cases he : e'.1 = k
      · rw [dictInsert_cons, if_pos he] at h
        rcases List.mem_cons.1 h with h | h
        · exact Or.inl h
        · exact Or.inr (List.mem_cons_of_mem _ h)
      · rw [dictInsert_cons, if_neg he] at h
        rcases List.mem_cons.1 h with h | h
        · exact Or.inr (by simp [h])
        · rcases ih h with h' | h'
          · exact Or.inl h'
          · exact Or.inr (List.mem_cons_of_mem _ h')

theorem dictGet_eq_none_iff (k : α) (l : List (α × β)) :
    dictGet k l = none ↔ k ∉ l.map Prod.fst := by
  induction l with
  | nil => simp
  | cons e rest ih =>
      by_cases h : e.1 = k
      · simp [h]
      · have h' : ¬ k = e.1 := fun hh => h hh.symm
        simp [h, h', ih]

theorem dictGet_isSome_iff (k : α) (l : List (α × β)) :
    (dictGet k l).isSome ↔ k ∈ l.map Prod.fst := by
  rcases h : dictGet k l with _ | v
  · simp [(dictGet_eq_none_iff k l).1 h]
  · have : ¬ dictGet k l = none := by simp [h]
    rw [dictGet_eq_none_iff] at this
    simpa using this

theorem dictGet_mem {k : α} {v : β} {l : List (α × β)}
    (h : dictGet k l = some v) : (k, v) ∈ l := by
  induction l with
  | nil => simp at h
  | cons e rest ih =>
      obtain ⟨a, b⟩ := e
      by_cases he : a = k
      · subst he
        rw [dictGet_cons, if_pos rfl] at h
        obtain rfl : b = v := by simpa using h
        exact List.mem_cons_self _ _
      · rw [dictGet_cons, if_neg he] at h
        exact List.mem_cons_of_mem _ (ih h)

theorem dictGet_of_mem {k : α} {v : β} {l : List (α × β)}
    (hmem : (k, v) ∈ l) (hnd : (l.map Prod.fst).Nodup) : dictGet k l = some v := by
  induction l with
  | nil => simp at hmem
  | cons e rest ih =>
      simp only [List.map_cons, List.nodup_cons] at hnd
      rcases List.mem_cons.1 hmem with hmem | hmem
      · simp [← hmem]
      · have hk : e.1 ≠ k := by
          intro h
          exact hnd.1 (h ▸ (List.mem_map_of_mem Prod.fst hmem))
        simp [hk, ih hmem hnd.2]

end DictLemmas

/-! ## Theorems: string order lemmas -/

section StringOrderLemmas

theorem lexLt_iff : ∀ l₁ l₂ : List Char, lexLt l₁ l₂ = true ↔ l₁ < l₂
  | _, [] => by
      constructor
      · intro h
        simp [lexLt] at h
      · intro h
        cases h
  | [], _ :: _ => by
      constructor
      · intro _
        exact List.Lex.nil
      · intro _
        rfl
  | a :: as, b :: bs => by
      by_cases hab : a < b
      · simp only [lexLt, if_pos hab]
        constructor
        · intro _
          exact List.Lex.rel hab
        · intro _
          trivial
      · by_cases hba : b < a
        · simp only [lexLt, if_neg hab, if_pos hba]
          constructor
          · intro h
            simp at h
          · intro h
            cases h with
            | rel h' => exact absurd h' hab
            | cons h' => exact absurd hba (lt_irrefl a)
        · have heq : a = b := le_antisymm (not_lt.1 hba) (not_lt.1 hab)
          subst heq
          simp only [lexLt, if_neg hab, if_neg hba]
          rw [lexLt_iff as bs]
          constructor
          · intro h
            exact List.Lex.cons h
          · intro h
            cases h with
            | rel h' => exact absurd h' hab
            | cons h' => exact h'

theorem strLtb_iff (a b : String) : strLtb a b = true ↔ a < b := by
  rw [String.lt_iff_toList_lt]
  exact lexLt_iff _ _

theorem keyLe_iff {β : Type} (a b : String × β) : keyLe a b ↔ a.1 ≤ b.1 := by
  unfold keyLe
  rw [Bool.eq_false_iff, Ne, strLtb_iff]
  exact not_lt

theorem sortByKey_perm {β : Type} (l : List (String × β)) :
    List.Perm (sortByKey l) l :=
  List.perm_insertionSort _ l

theorem sortByKey_sorted {β : Type} (l : List (String × β)) :
    (sortByKey l).Sorted fun a b => a.1 ≤ b.1 := by
  haveI : IsTotal (String × β) keyLe :=
    ⟨fun a b => by rw [keyLe_iff, keyLe_iff]; exact le_total a.1 b.1⟩
  haveI : IsTrans (String × β) keyLe :=
    ⟨fun a b c h1 h2 => by
      rw [keyLe_iff] at h1 h2 ⊢
      exact le_trans h1 h2⟩
  have h := List.sorted_insertionSort keyLe l
  exact h.imp fun hab => (keyLe_iff _ _).1 hab

end StringOrderLemmas

/-! ## Theorems: folds of dict insertions -/

section FoldLemmas

variable {α β γ : Type} [DecidableEq α]

theorem nodupKeys_foldl_dictInsert (f : γ → α) (g : γ → β) (L : List γ)
    {acc : List (α × β)} (h : (acc.map Prod.fst).Nodup) :
    (((L.foldl (fun a c => dictInsert (f c) (g c) a) acc)).map Prod.fst).Nodup := by
  induction L generalizing acc with
  | nil => exact h
  | cons c rest ih => exact ih (nodupKeys_dictInsert _ _ h)

theorem mem_keys_foldl_dictInsert (f : γ → α) (g : γ → β) (L : List γ)
    (acc : List (α × β)) (a : α) :
    a ∈ (L.foldl (fun a c => dictInsert (f c) (g c) a) acc).map Prod.fst ↔
      a ∈ acc.map Prod.fst ∨ ∃ c ∈ L, f c = a := by
  induction L generalizing acc with
  | nil => simp
  | cons c rest ih =>
      rw [List.foldl_cons, ih]
      rw [mem_keys_dictInsert]
      simp only [List.mem_cons]
      constructor
      · rintro ((h | h) | ⟨c', hc', h⟩)
        · exact Or.inr ⟨c, Or.inl rfl, h.symm⟩
        · exact Or.inl h
        · exact Or.inr ⟨c', Or.inr hc', h⟩
      · rintro (h | ⟨c', (rfl | hc'), h⟩)
        · exact Or.inl (Or.inr h)
        · exact Or.inl (Or.inl h.symm)
        · exact Or.inr ⟨c', hc', h⟩

theorem mem_foldl_dictInsert (f : γ → α) (g : γ → β) (L : List γ)
    (acc : List (α × β)) {e : α × β}
    (h : e ∈ L.foldl (fun a c => dictInsert (f c) (g c) a) acc) :
    e ∈ acc ∨ ∃ c ∈ L, e = (f c, g c) := by
  induction L generalizing acc with
  | nil => exact Or.inl h
  | cons c rest ih =>
      rw [List.foldl_cons] at h
      rcases ih _ h with h' | ⟨c', hc', h'⟩
      · rcases mem_dictInsert h' with h'' | h''
        · exact Or.inr ⟨c, List.mem_cons_self _ _, h''⟩
        · exact Or.inl h''
      · exact Or.inr ⟨c', List.mem_cons_of_mem _ hc', h'⟩

theorem foldl_dictInsert_append :
    ∀ (l : List (α × β)) (acc : List (α × β)),
    (l.map Prod.fst).Nodup →
    (∀ a ∈ l.map Prod.fst, a ∉ acc.map Prod.fst) →
    l.foldl (fun acc kv => dictInsert kv.1 kv.2 acc) acc = acc ++ l
  | [], acc, _, _ => by simp
  | kv :: rest, acc, hnd, hdisj => by
      simp only [List.map_cons, List.nodup_cons] at hnd
      rw [List.foldl_cons,
        dictInsert_of_not_mem_keys kv.2 (hdisj kv.1 (by simp)),
        foldl_dictInsert_append rest (acc ++ [(kv.1, kv.2)]) hnd.2 ?_]
      · simp
      · intro a ha
        rw [List.map_append, List.mem_append]
        push_neg
        refine ⟨hdisj a (by simp [ha]), ?_⟩
        simp only [List.map_cons, List.map_nil, List.mem_singleton]
        intro hc
        exact hnd.1 (hc ▸ ha)

theorem dictGet_foldl_dictInsert (f : γ → α) (g : γ → β) (L : List γ) :
    ∀ (acc : List (α × β)) (k : α),
      dictGet k (L.foldl (fun a c => dictInsert (f c) (g c) a) acc) =
        L.foldl (fun r c => if f c = k then some (g c) else r) (dictGet k acc) := by
  induction L with
  | nil => intro acc k; rfl
  | cons c rest ih =>
      intro acc k
      rw [List.foldl_cons, List.foldl_cons, ih]
      congr 1
      by_cases hc : f c = k
      · rw [if_pos hc, ← hc, dictGet_dictInsert_self]
      · rw [if_neg hc, dictGet_dictInsert_ne (fun hk => hc hk.symm)]

theorem dictGet_map_value {δ : Type} (F : β → δ) (l : List (α × β)) (k : α) :
    dictGet k (l.map fun e => (e.1, F e.2)) = (dictGet k l).map F := by
  induction l with
  | nil => simp
  | cons e rest ih =>
      by_cases h : e.1 = k <;> simp [h, ih]

theorem foldlM_option_eq_foldl {σ τ : Type} (f : σ → τ → Option σ) (g : σ → τ → σ)
    (L : List τ) (h : ∀ s t, t ∈ L → f s t = some (g s t)) :
    ∀ init : σ, L.foldlM f init = some (L.foldl g init) := by
  induction L with
  | nil => intro init; rfl
  | cons t rest ih =>
      intro init
      rw [List.foldlM_cons, h init t (List.mem_cons_self _ _), List.foldl_cons]
      exact ih (fun s t' ht' => h s t' (List.mem_cons_of_mem _ ht')) (g init t)

end FoldLemmas

/-! ## Theorems: `seen` dict and `get_all_bssids` -/

section SeenLemmas

theorem nodupKeys_seenFold (st : Signals) : ((seenFold st).map Prod.fst).Nodup := by
  unfold seenFold
  suffices h : ∀ (l : Signals) (acc : List (String × String)),
      (acc.map Prod.fst).Nodup →
      ((l.foldl (fun seen pps =>
        pps.2.foldl (fun s2 e => dictInsert e.2.bssid e.2.ssid s2) seen) acc).map
          Prod.fst).Nodup by
    exact h st [] List.nodup_nil
  intro l
  induction l with
  | nil => intro acc h; exact h
  | cons pps rest ih =>
      intro acc h
      exact ih _ (nodupKeys_foldl_dictInsert (fun e => e.2.bssid) (fun e => e.2.ssid)
        pps.2 h)

theorem mem_keys_seenFold (st : Signals) (a : String) :
    a ∈ (seenFold st).map Prod.fst ↔
      ∃ pps ∈ st, ∃ e ∈ pps.2, e.2.bssid = a := by
  unfold seenFold
  suffices h : ∀ (l : Signals) (acc : List (String × String)),
      a ∈ ((l.foldl (fun seen pps =>
        pps.2.foldl (fun s2 e => dictInsert e.2.bssid e.2.ssid s2) seen) acc).map
          Prod.fst) ↔
        a ∈ acc.map Prod.fst ∨ ∃ pps ∈ l, ∃ e ∈ pps.2, e.2.bssid = a by
    rw [h st []]
    simp
  intro l
  induction l with
  | nil => intro acc; simp
  | cons pps rest ih =>
      intro acc
      rw [List.foldl_cons, ih,
        mem_keys_foldl_dictInsert (fun e : String × Signal => e.2.bssid)
          (fun e : String × Signal => e.2.ssid)]
      simp only [List.mem_cons]
      constructor
      · rintro ((h | h) | ⟨pps', hp', h⟩)
        · exact Or.inl h
        · exact Or.inr ⟨pps, Or.inl rfl, h⟩
        · exact Or.inr ⟨pps', Or.inr hp', h⟩
      · rintro (h | ⟨pps', (rfl | hp'), h⟩)
        · exact Or.inl (Or.inl h)
        · exact Or.inl (Or.inr h)
        · exact Or.inr ⟨pps', hp', h⟩

theorem mem_seenFold (st : Signals) {e : String × String}
    (h : e ∈ seenFold st) :
    ∃ pps ∈ st, ∃ s ∈ pps.2, s.2.bssid = e.1 ∧ s.2.ssid = e.2 := by
  unfold seenFold at h
  suffices hgen : ∀ (l : Signals) (acc : List (String × String)),
      e ∈ l.foldl (fun seen pps =>
        pps.2.foldl (fun s2 x => dictInsert x.2.bssid x.2.ssid s2) seen) acc →
      e ∈ acc ∨ ∃ pps ∈ l, ∃ s ∈ pps.2, s.2.bssid = e.1 ∧ s.2.ssid = e.2 by
    rcases hgen st [] h with h' | h'
    · simp at h'
    · exact h'
  intro l
  induction l with
  | nil => intro acc h'; exact Or.inl h'
  | cons pps rest ih =>
      intro acc h'
      rw [List.foldl_cons] at h'
      rcases ih _ h' with h'' | h''
      · rcases mem_foldl_dictInsert (fun x => x.2.bssid) (fun x => x.2.ssid)
          pps.2 acc h'' with h3 | ⟨s, hs, h3⟩
        · exact Or.inl h3
        · refine Or.inr ⟨pps, List.mem_cons_self _ _, s, hs, ?_, ?_⟩ <;>
            simp [h3]
      · rcases h'' with ⟨pps', hp', rest'⟩
        exact Or.inr ⟨pps', List.mem_cons_of_mem _ hp', rest'⟩

theorem nodupKeys_get_all_bssids (st : Signals) :
    ((get_all_bssids st).map Prod.fst).Nodup := by
  have hperm := (sortByKey_perm (seenFold st)).map Prod.fst
  exact hperm.nodup_iff.2 (nodupKeys_seenFold st)

theorem mem_keys_get_all_bssids (st : Signals) (a : String) :
    a ∈ (get_all_bssids st).map Prod.fst ↔
      ∃ pps ∈ st, ∃ e ∈ pps.2, e.2.bssid = a := by
  rw [← mem_keys_seenFold]
  exact ((sortByKey_perm (seenFold st)).map Prod.fst).mem_iff

theorem mem_get_all_bssids (st : Signals) {e : String × String}
    (h : e ∈ get_all_bssids st) :
    ∃ pps ∈ st, ∃ s ∈ pps.2, s.2.bssid = e.1 ∧ s.2.ssid = e.2 :=
  mem_seenFold st ((sortByKey_perm (seenFold st)).mem_iff.1 h)

theorem dictGet_seenFold (st : Signals) (b : String) :
    dictGet b (seenFold st) = lastLabelIn st b := by
  unfold seenFold lastLabelIn
  suffices h : ∀ (l : Signals) (acc : List (String × String)),
      dictGet b (l.foldl (fun seen pps =>
        pps.2.foldl (fun s2 e => dictInsert e.2.bssid e.2.ssid s2) seen) acc) =
      l.foldl (fun r pps =>
        pps.2.foldl (fun a s => if s.2.bssid = b then some s.2.ssid else a) r)
        (dictGet b acc) by
    exact h st []
  intro l
  induction l with
  | nil => intro acc; rfl
  | cons pps rest ih =>
      intro acc
      rw [List.foldl_cons, List.foldl_cons, ih,
        dictGet_foldl_dictInsert (fun e : String × Signal => e.2.bssid)
          (fun e : String × Signal => e.2.ssid) pps.2 acc b]

theorem mem_get_all_bssids_iff (st : Signals) (k l : String) :
    (k, l) ∈ get_all_bssids st ↔ lastLabelIn st k = some l := by
  rw [← dictGet_seenFold]
  constructor
  · intro h
    exact dictGet_of_mem ((sortByKey_perm (seenFold st)).mem_iff.1 h)
      (nodupKeys_seenFold st)
  · intro h
    exact (sortByKey_perm (seenFold st)).mem_iff.2 (dictGet_mem h)

end SeenLemmas

/-! ## Theorems: invariants of stores built by the program -/

section BuildLemmas

theorem mem_buildPoint {sigs : List Signal} {e : String × Signal}
    (h : e ∈ buildPoint sigs) : e.2.bssid = e.1 ∧ e.2 ∈ sigs := by
  unfold buildPoint at h
  have h' := mem_foldl_dictInsert Signal.bssid id sigs [] (by
    simpa [add_signal] using h)
  rcases h' with h' | ⟨s, hs, h'⟩
  · simp at h'
  · subst h'
    exact ⟨rfl, hs⟩

theorem nodupKeys_buildPoint (sigs : List Signal) :
    ((buildPoint sigs).map Prod.fst).Nodup := by
  unfold buildPoint
  have := @nodupKeys_foldl_dictInsert String Signal Signal _ Signal.bssid id sigs
    ([] : PointSignals) (by simp)
  simpa [add_signal] using this

theorem mem_buildStore {ops : List (Pos × List Signal)} {e : Pos × PointSignals}
    (h : e ∈ buildStore ops) : ∃ op ∈ ops, e = (op.1, buildPoint op.2) := by
  unfold buildStore at h
  have h' := mem_foldl_dictInsert Prod.fst (fun op => buildPoint op.2) ops [] (by
    simpa [add_point_signals] using h)
  rcases h' with h' | h'
  · simp at h'
  · exact h'

theorem nodupKeys_buildStore (ops : List (Pos × List Signal)) :
    ((buildStore ops).map Prod.fst).Nodup := by
  unfold buildStore
  have := @nodupKeys_foldl_dictInsert Pos PointSignals (Pos × List Signal) _
    Prod.fst (fun op => buildPoint op.2) ops ([] : Signals) (by simp)
  simpa [add_point_signals] using this

theorem buildStore_wf (ops : List (Pos × List Signal)) : StoreWF (buildStore ops) := by
  refine ⟨nodupKeys_buildStore ops, fun e he => ?_⟩
  obtain ⟨op, _, rfl⟩ := mem_buildStore he
  exact ⟨nodupKeys_buildPoint op.2, fun s hs => (mem_buildPoint hs).1⟩

theorem buildStore_noSemiKeys {ops : List (Pos × List Signal)}
    (h : ∀ op ∈ ops, ∀ sig ∈ op.2, (';' : Char) ∉ sig.bssid.toList) :
    NoSemiKeys (buildStore ops) := by
  intro e he s hs
  obtain ⟨op, hop, rfl⟩ := mem_buildStore he
  obtain ⟨hb, hmem⟩ := mem_buildPoint hs
  rw [← hb]
  exact h op hop s.2 hmem

end BuildLemmas

/-! ## Theorems: header join/split -/

section SplitLemmas

theorem toList_append (a b : String) : (a ++ b).toList = a.toList ++ b.toList := by
  cases a
  cases b
  rfl

theorem splitFirstAux_append {k : List Char} (l : List Char)
    (h : (';' : Char) ∉ k) : splitFirstAux (k ++ ';' :: l) = some (k, l) := by
  induction k with
  | nil => simp [splitFirstAux]
  | cons c rest ih =>
      simp only [List.mem_cons] at h
      push_neg at h
      have hc : ¬ c = ';' := fun hc => h.1 hc.symm
      simp [splitFirstAux, hc, ih h.2]

theorem splitFirst_join (k l : String) (h : (';' : Char) ∉ k.toList) :
    splitFirst (k ++ ";" ++ l) = some (k, l) := by
  unfold splitFirst
  have h1 : (k ++ ";" ++ l).toList = k.toList ++ ';' :: l.toList := by
    rw [toList_append, toList_append, List.append_assoc]
    rfl
  rw [h1, splitFirstAux_append _ h]
  rfl

theorem join_inj {k1 l1 k2 l2 : String} (h1 : (';' : Char) ∉ k1.toList)
    (h2 : (';' : Char) ∉ k2.toList) (h : k1 ++ ";" ++ l1 = k2 ++ ";" ++ l2) :
    k1 = k2 ∧ l1 = l2 := by
  have e1 := splitFirst_join k1 l1 h1
  rw [h, splitFirst_join k2 l2 h2] at e1
  have e2 : (k2, l2) = (k1, l1) := by simpa using e1
  exact ⟨(congrArg Prod.fst e2).symm, (congrArg Prod.snd e2).symm⟩

theorem splitFirstAux_of_mem :
    ∀ (cs : List Char), (';' : Char) ∈ cs → ∀ tail : List Char,
      splitFirstAux (cs ++ tail) =
        some (cs.takeWhile (· ≠ ';'), (cs.dropWhile (· ≠ ';')).tail ++ tail)
  | [], h, _ => absurd h (List.not_mem_nil _)
  | c :: rest, h, tail => by
      by_cases hc : c = ';'
      · subst hc
        simp [splitFirstAux, List.takeWhile_cons, List.dropWhile_cons]
      · have h' : (';' : Char) ∈ rest := by
          rcases List.mem_cons.1 h with h0 | h0
          · exact absurd h0.symm hc
          · exact h0
        simp [splitFirstAux, hc, splitFirstAux_of_mem rest h' tail,
          List.takeWhile_cons, List.dropWhile_cons]

theorem splitFirst_join_of_mem (k l : String) (h : (';' : Char) ∈ k.toList) :
    ∃ r : String × String,
      splitFirst (k ++ ";" ++ l) = some r ∧
        r.1.toList = k.toList.takeWhile (· ≠ ';') ∧ r.1 ≠ k := by
  have h1 : (k ++ ";" ++ l).toList = k.toList ++ ';' :: l.toList := by
    rw [toList_append, toList_append, List.append_assoc]
    rfl
  refine ⟨(String.mk (k.toList.takeWhile (· ≠ ';')),
    String.mk ((k.toList.dropWhile (· ≠ ';')).tail ++ ';' :: l.toList)), ?_, rfl, ?_⟩
  · unfold splitFirst
    rw [h1, splitFirstAux_of_mem k.toList h (';' :: l.toList)]
    rfl
  · intro hc
    have hdata : k.toList.takeWhile (· ≠ ';') = k.toList := by
      have := congrArg String.toList hc
      simpa using this
    have hmem : (';' : Char) ∈ k.toList.takeWhile (· ≠ ';') := by
      rw [hdata]
      exact h
    have := List.mem_takeWhile_imp hmem
    simp at this

end SplitLemmas

/-! ## Theorems: row parsing and CSV round-trip -/

section RoundTripLemmas

theorem keys_parsedPoint_subset (bs : List (String × String)) (ps : PointSignals)
    {a : String} (h : a ∈ (parsedPoint bs ps).map Prod.fst) :
    a ∈ bs.map Prod.fst := by
  unfold parsedPoint at h
  rcases List.mem_map.1 h with ⟨e, he, rfl⟩
  rcases List.mem_filterMap.1 he with ⟨b, hb, hfb⟩
  rcases Option.map_eq_some'.1 hfb with ⟨sig, _, rfl⟩
  exact List.mem_map_of_mem Prod.fst hb

theorem dictGet_parsedPoint (ps : PointSignals) :
    ∀ bs : List (String × String), (bs.map Prod.fst).Nodup → ∀ b : String,
      dictGet b (parsedPoint bs ps) =
        (dictGet b bs).bind fun lb => (dictGet b ps).map fun sig =>
          { ssid := lb, bssid := b, rssi := sig.rssi }
  | [], _, b => by simp [parsedPoint]
  | e :: rest, hnd, b => by
      have hnd' : (rest.map Prod.fst).Nodup := by
        simp only [List.map_cons, List.nodup_cons] at hnd
        exact hnd.2
      have hniq : e.1 ∉ rest.map Prod.fst := by
        simp only [List.map_cons, List.nodup_cons] at hnd
        exact hnd.1
      by_cases hb : e.1 = b
      · subst hb
        cases hdg : dictGet e.1 ps with
        | none =>
            have hstep : parsedPoint (e :: rest) ps = parsedPoint rest ps := by
              unfold parsedPoint
              rw [List.filterMap_cons]
              simp [hdg]
            have h1 : dictGet e.1 (parsedPoint rest ps) = none := by
              rw [dictGet_eq_none_iff]
              intro hc
              exact hniq (keys_parsedPoint_subset rest ps hc)
            rw [hstep, h1]
            simp [hdg]
        | some sig =>
            have hstep : parsedPoint (e :: rest) ps =
                (e.1, { ssid := e.2, bssid := e.1, rssi := sig.rssi }) ::
                  parsedPoint rest ps := by
              unfold parsedPoint
              rw [List.filterMap_cons]
              simp [hdg]
            rw [hstep]
            simp [hdg]
      · cases hdg : dictGet e.1 ps with
        | none =>
            have hstep : parsedPoint (e :: rest) ps = parsedPoint rest ps := by
              unfold parsedPoint
              rw [List.filterMap_cons]
              simp [hdg]
            rw [hstep, dictGet_parsedPoint ps rest hnd' b]
            simp [hb]
        | some sig =>
            have hstep : parsedPoint (e :: rest) ps =
                (e.1, { ssid := e.2, bssid := e.1, rssi := sig.rssi }) ::
                  parsedPoint rest ps := by
              unfold parsedPoint
              rw [List.filterMap_cons]
              simp [hdg]
            rw [hstep, dictGet_cons, if_neg hb, dictGet_parsedPoint ps rest hnd' b]
            simp [hb]

theorem parseRow_cols (ps : PointSignals) :
    ∀ (bs : List (String × String)) (init : PointSignals),
      (∀ b ∈ bs, (';' : Char) ∉ b.1.toList) →
      List.foldlM (fun ps' kv =>
          (splitFirst kv.1).map fun q =>
            match kv.2 with
            | none => ps'
            | some v => add_signal ps' { ssid := q.2, bssid := q.1, rssi := v })
        init (bs.map fun b => (b.1 ++ ";" ++ b.2, (dictGet b.1 ps).map Signal.rssi)) =
      some (bs.foldl (fun acc b =>
          match dictGet b.1 ps with
          | none => acc
          | some sig => add_signal acc { ssid := b.2, bssid := b.1, rssi := sig.rssi })
        init)
  | [], init, _ => rfl
  | b :: rest, init, hsemi => by
      have hsp := splitFirst_join b.1 b.2 (hsemi b (List.mem_cons_self _ _))
      have hsemi' : ∀ x ∈ rest, (';' : Char) ∉ x.1.toList :=
        fun x hx => hsemi x (List.mem_cons_of_mem _ hx)
      cases hdg : dictGet b.1 ps with
      | none =>
          simp only [List.map_cons, List.foldlM_cons, List.foldl_cons, hdg, hsp,
            Option.map_none', Option.map_some', Option.some_bind]
          exact parseRow_cols ps rest init hsemi'
      | some sig =>
          simp only [List.map_cons, List.foldlM_cons, List.foldl_cons, hdg, hsp,
            Option.map_none', Option.map_some', Option.some_bind]
          exact parseRow_cols ps rest _ hsemi'

theorem foldl_cols_parsedPoint (ps : PointSignals) :
    ∀ (bs : List (String × String)) (acc : PointSignals),
      (bs.map Prod.fst).Nodup →
      (∀ a ∈ bs.map Prod.fst, a ∉ acc.map Prod.fst) →
      bs.foldl (fun acc b =>
          match dictGet b.1 ps with
          | none => acc
          | some sig => add_signal acc { ssid := b.2, bssid := b.1, rssi := sig.rssi })
        acc = acc ++ parsedPoint bs ps
  | [], acc, _, _ => by simp [parsedPoint]
  | b :: rest, acc, hnd, hdisj => by
      simp only [List.map_cons, List.nodup_cons] at hnd
      rw [List.foldl_cons]
      cases hdg : dictGet b.1 ps with
      | none =>
          have hstep : parsedPoint (b :: rest) ps = parsedPoint rest ps := by
            unfold parsedPoint
            rw [List.filterMap_cons]
            simp [hdg]
          rw [hstep]
          exact foldl_cols_parsedPoint ps rest acc hnd.2
            (fun a ha => hdisj a (List.mem_cons_of_mem _ ha))
      | some sig =>
          have hstep : parsedPoint (b :: rest) ps =
              (b.1, { ssid := b.2, bssid := b.1, rssi := sig.rssi }) ::
                parsedPoint rest ps := by
            unfold parsedPoint
            rw [List.filterMap_cons]
            simp [hdg]
          have hfresh : b.1 ∉ acc.map Prod.fst := hdisj b.1 (by simp)
          have hins : add_signal acc { ssid := b.2, bssid := b.1, rssi := sig.rssi } =
              acc ++ [(b.1, { ssid := b.2, bssid := b.1, rssi := sig.rssi })] := by
            unfold add_signal
            exact dictInsert_of_not_mem_keys _ hfresh
          have hdisjx : ∀ a ∈ rest.map Prod.fst,
              a ∉ (add_signal acc
                { ssid := b.2, bssid := b.1, rssi := sig.rssi }).map Prod.fst := by
            intro a ha
            rw [hins, List.map_append, List.mem_append]
            push_neg
            refine ⟨hdisj a (by simp [ha]), ?_⟩
            simp only [List.map_cons, List.map_nil, List.mem_singleton]
            intro hc
            exact hnd.1 (hc ▸ ha)
          have hrec := foldl_cols_parsedPoint ps rest
            (add_signal acc { ssid := b.2, bssid := b.1, rssi := sig.rssi })
            hnd.2 hdisjx
          rw [hstep]
          refine Eq.trans hrec ?_
          rw [hins, List.append_assoc]
          rfl

theorem parseRow_row (ps : PointSignals) (bs : List (String × String))
    (hnd : (bs.map Prod.fst).Nodup)
    (hsemi : ∀ b ∈ bs, (';' : Char) ∉ b.1.toList) :
    parseRow (dictRowOf (bs.map fun b => b.1 ++ ";" ++ b.2)
      (get_all_rssi ps (bs.map Prod.fst))) = some (parsedPoint bs ps) := by
  have hcells : get_all_rssi ps (bs.map Prod.fst)
      = bs.map fun b => (dictGet b.1 ps).map Signal.rssi := by
    unfold get_all_rssi
    rw [List.map_map]
    rfl
  have hzip : (bs.map fun b => b.1 ++ ";" ++ b.2).zip
      (bs.map fun b => (dictGet b.1 ps).map Signal.rssi)
      = bs.map fun b => (b.1 ++ ";" ++ b.2, (dictGet b.1 ps).map Signal.rssi) :=
    List.zip_map' _ _ bs
  have hhdr : ((bs.map fun b =>
      (b.1 ++ ";" ++ b.2, (dictGet b.1 ps).map Signal.rssi)).map Prod.fst).Nodup := by
    rw [List.map_map]
    have hcomp : (Prod.fst ∘ fun b : String × String =>
        (b.1 ++ ";" ++ b.2, (dictGet b.1 ps).map Signal.rssi)) =
        fun b : String × String => b.1 ++ ";" ++ b.2 := rfl
    rw [hcomp]
    refine List.Nodup.map_on ?_ (List.Nodup.of_map Prod.fst hnd)
    intro x hx y hy hxy
    have hj := join_inj (hsemi x hx) (hsemi y hy) hxy
    exact Prod.ext hj.1 hj.2
  have hrow : dictRowOf (bs.map fun b => b.1 ++ ";" ++ b.2)
      (get_all_rssi ps (bs.map Prod.fst))
      = bs.map fun b => (b.1 ++ ";" ++ b.2, (dictGet b.1 ps).map Signal.rssi) := by
    unfold dictRowOf
    rw [hcells, hzip]
    have := foldl_dictInsert_append
      (bs.map fun b => (b.1 ++ ";" ++ b.2, (dictGet b.1 ps).map Signal.rssi))
      [] hhdr (by simp)
    simpa using this
  unfold parseRow
  rw [hrow, parseRow_cols ps bs [] hsemi,
    foldl_cols_parsedPoint ps bs [] hnd (by simp)]
  rfl

theorem noSemi_get_all_bssids (st : Signals) (hwf : StoreWF st)
    (hsemi : NoSemiKeys st) :
    ∀ b ∈ get_all_bssids st, (';' : Char) ∉ b.1.toList := by
  intro b hb
  obtain ⟨pps, hpps, s, hs, hbss, _⟩ := mem_get_all_bssids st hb
  have hkey : s.2.bssid = s.1 := (hwf.2 pps hpps).2 s hs
  have hb1 : b.1 = s.1 := by rw [← hbss, hkey]
  rw [hb1]
  exact hsemi pps hpps s hs

theorem foldlM_map {σ τ υ : Type} (g : τ → υ) (f : σ → υ → Option σ)
    (l : List τ) : ∀ init : σ,
    (l.map g).foldlM f init = l.foldlM (fun a c => f a (g c)) init := by
  induction l with
  | nil => intro init; rfl
  | cons t rest ih =>
      intro init
      rw [List.map_cons, List.foldlM_cons, List.foldlM_cons]
      cases f init (g t) with
      | none => rfl
      | some s => exact ih s

theorem read_csv_write_csv (st : Signals) (hwf : StoreWF st)
    (hsemi : NoSemiKeys st) :
    read_csv (write_csv st) =
      some (st.map fun pps => (pps.1, parsedPoint (get_all_bssids st) pps.2)) := by
  have hbsemi := noSemi_get_all_bssids st hwf hsemi
  have hbnd := nodupKeys_get_all_bssids st
  unfold read_csv write_csv
  simp only
  rw [foldlM_map]
  rw [foldlM_option_eq_foldl _
    (fun st' pps => add_point_signals st' pps.1
      (parsedPoint (get_all_bssids st) pps.2))
    st
    (fun st' pps _ => by
      rw [parseRow_row pps.2 (get_all_bssids st) hbnd hbsemi]
      rfl)]
  congr 1
  have hfold : st.foldl (fun acc pps => add_point_signals acc pps.1
      (parsedPoint (get_all_bssids st) pps.2)) [] =
      (st.map fun pps => (pps.1, parsedPoint (get_all_bssids st) pps.2)).foldl
        (fun acc kv => dictInsert kv.1 kv.2 acc) [] := by
    rw [List.foldl_map]
    rfl
  rw [hfold, foldl_dictInsert_append _ [] ?hnd (by simp)]
  · simp
  case hnd =>
    rw [List.map_map]
    have hcomp : (Prod.fst ∘ fun pps : Pos × PointSignals =>
        (pps.1, parsedPoint (get_all_bssids st) pps.2)) = Prod.fst := rfl
    rw [hcomp]
    exact hwf.1

theorem content2_key_in_columns (st : Signals) (hwf : StoreWF st)
    {p : Pos} {b : String} {sig : Signal} (h : content2 st p b = some sig) :
    ∃ lb, dictGet b (get_all_bssids st) = some lb := by
  unfold content2 at h
  cases hp : dictGet p st with
  | none => rw [hp] at h; simp at h
  | some ps =>
      rw [hp] at h
      simp only [Option.some_bind] at h
      have hmem := dictGet_mem h
      have hst := dictGet_mem hp
      have hb : sig.bssid = b := (hwf.2 (p, ps) hst).2 (b, sig) hmem
      have hk : b ∈ (get_all_bssids st).map Prod.fst :=
        (mem_keys_get_all_bssids st b).2 ⟨(p, ps), hst, (b, sig), hmem, hb⟩
      rcases Option.isSome_iff_exists.1 ((dictGet_isSome_iff b _).2 hk) with ⟨lb, hlb⟩
      exact ⟨lb, hlb⟩

theorem content2_roundtrip (st : Signals) (hwf : StoreWF st)
    (hsemi : NoSemiKeys st) (p : Pos) (b : String) :
    ∀ st', read_csv (write_csv st) = some st' →
      content2 st' p b =
        (dictGet b (get_all_bssids st)).bind fun lb =>
          (content2 st p b).map fun sig =>
            { ssid := lb, bssid := b, rssi := sig.rssi } := by
  intro st' hread
  rw [read_csv_write_csv st hwf hsemi] at hread
  obtain rfl : st' = _ := (Option.some.inj hread).symm
  unfold content2
  rw [dictGet_map_value (parsedPoint (get_all_bssids st))]
  cases hp : dictGet p st with
  | none =>
      simp only [Option.map_none', Option.none_bind]
      cases dictGet b (get_all_bssids st) <;> simp
  | some ps =>
      simp only [Option.map_some', Option.some_bind]
      rw [dictGet_parsedPoint ps (get_all_bssids st) (nodupKeys_get_all_bssids st) b]

theorem content_roundtrip (st : Signals) (hwf : StoreWF st) (hsemi : NoSemiKeys st) :
    ∃ st', read_csv (write_csv st) = some st' ∧
      ∀ p b, content st' p b = content st p b := by
  refine ⟨_, read_csv_write_csv st hwf hsemi, fun p b => ?_⟩
  unfold content
  rw [content2_roundtrip st hwf hsemi p b _ (read_csv_write_csv st hwf hsemi)]
  cases h2 : content2 st p b with
  | none => cases dictGet b (get_all_bssids st) <;> simp
  | some sig =>
      obtain ⟨lb, hlb⟩ := content2_key_in_columns st hwf h2
      simp [hlb]

end RoundTripLemmas

/-! ## Theorems: the RBF interpolation stage -/

section InterpLemmas

theorem edist2_self (p : ℝ × ℝ) : edist2 p p = 0 := by
  unfold edist2
  rw [show (p.1 - p.1) ^ 2 + (p.2 - p.2) ^ 2 = 0 by ring_nf]
  exact Real.sqrt_zero

theorem rbfA_row_eq {samples : List ((ℝ × ℝ) × ℝ)} {i j : Fin samples.length}
    (hpos : (samples.get i).1 = (samples.get j).1) :
    rbfA samples i = rbfA samples j := by
  funext k
  show edist2 (samples.get i).1 (samples.get k).1 =
    edist2 (samples.get j).1 (samples.get k).1
  rw [hpos]

/-- Zero samples: `np.amax(xi, axis=1)` in the default-`epsilon`
computation reduces over an empty axis and raises `ValueError`. -/
theorem rbfInterpolate_empty :
    rbfInterpolate ([] : List ((ℝ × ℝ) × ℝ)) =
      Except.error InterpError.valueError := by
  unfold rbfInterpolate
  rw [if_pos (show ([] : List ((ℝ × ℝ) × ℝ)).length = 0 from rfl)]

/-- All sample positions coincident (at least one sample): the filtered
`edges` array is empty and `1.0/edges.size` raises `ZeroDivisionError`
before any matrix is formed. -/
theorem rbf_all_coincident {samples : List ((ℝ × ℝ) × ℝ)}
    (hne : samples.length ≠ 0) (hco : allCoincident samples) :
    rbfInterpolate samples = Except.error InterpError.zeroDivision := by
  unfold rbfInterpolate
  rw [if_neg hne, if_pos hco]

theorem rbfInterpolate_singleton (p : ℝ × ℝ) (z : ℝ) :
    rbfInterpolate [(p, z)] = Except.error InterpError.zeroDivision := by
  refine rbf_all_coincident (by simp) ?_
  have hp : ∀ k : Fin ([(p, z)].length), ([(p, z)].get k).1 = p := by
    intro k
    rcases k with ⟨kv, hk⟩
    have hk' : kv < 1 := hk
    interval_cases kv
    rfl
  intro i j
  rw [hp i, hp j]

theorem rbf_pair_same_pos (p : ℝ × ℝ) (z1 z2 : ℝ) :
    rbfInterpolate [(p, z1), (p, z2)] =
      Except.error InterpError.zeroDivision := by
  refine rbf_all_coincident (by simp) ?_
  have hp : ∀ k : Fin ([(p, z1), (p, z2)].length),
      ([(p, z1), (p, z2)].get k).1 = p := by
    intro k
    rcases k with ⟨kv, hk⟩
    have hk' : kv < 2 := hk
    interval_cases kv <;> rfl
  intro i j
  rw [hp i, hp j]

/-- A singular system matrix on a non-degenerate sample set (nonempty,
positions not all coincident): `scipy.linalg.solve` raises
`LinAlgError`. -/
theorem rbfInterpolate_spread_singular {samples : List ((ℝ × ℝ) × ℝ)}
    (hne : samples.length ≠ 0) (hsp : ¬ allCoincident samples)
    (hdet : (rbfA samples).det = 0) :
    rbfInterpolate samples = Except.error InterpError.illConditioned := by
  unfold rbfInterpolate
  rw [if_neg hne, if_neg hsp, dif_neg fun hc => hc hdet]

/-- Duplicate positions in a sample set that also spans some extent:
two equal matrix rows make the system exactly singular. -/
theorem rbf_dup_spread {samples : List ((ℝ × ℝ) × ℝ)}
    {i j : Fin samples.length} (hij : i ≠ j)
    (hpos : (samples.get i).1 = (samples.get j).1)
    (hsp : ¬ allCoincident samples) :
    rbfInterpolate samples = Except.error InterpError.illConditioned := by
  have hne : samples.length ≠ 0 := by
    intro h
    have hi := i.2
    omega
  exact rbfInterpolate_spread_singular hne hsp
    (Matrix.det_zero_of_row_eq hij (rbfA_row_eq hpos))

theorem rbfInterpolate_exact {samples : List ((ℝ × ℝ) × ℝ)}
    (hne : samples.length ≠ 0) (hsp : ¬ allCoincident samples)
    (h : (rbfA samples).det ≠ 0) :
    ∃ f, rbfInterpolate samples = Except.ok f ∧
      ∀ i : Fin samples.length, f (samples.get i).1 = (samples.get i).2 := by
  have hu : IsUnit (rbfA samples).det := isUnit_iff_ne_zero.2 h
  refine ⟨fun q => ∑ j, ((rbfA samples)⁻¹.mulVec fun k => (samples.get k).2) j *
      edist2 q (samples.get j).1, ?_, ?_⟩
  · unfold rbfInterpolate
    rw [if_neg hne, if_neg hsp, dif_pos h]
  · intro i
    show (∑ j, ((rbfA samples)⁻¹.mulVec fun k => (samples.get k).2) j *
      edist2 (samples.get i).1 (samples.get j).1) = (samples.get i).2
    have step1 : (∑ j, ((rbfA samples)⁻¹.mulVec fun k => (samples.get k).2) j *
        edist2 (samples.get i).1 (samples.get j).1)
        = ((rbfA samples).mulVec
            ((rbfA samples)⁻¹.mulVec fun k => (samples.get k).2)) i := by
      show _ = ∑ j, rbfA samples i j *
        ((rbfA samples)⁻¹.mulVec fun k => (samples.get k).2) j
      refine Finset.sum_congr rfl fun j _ => ?_
      rw [mul_comm]
      rfl
    rw [step1, Matrix.mulVec_mulVec, Matrix.mul_nonsing_inv _ hu,
      Matrix.one_mulVec]

/-- Every branch of the interpolation stage produces `ValueError`,
`ZeroDivisionError`, `LinAlgError` or a field — never an
unknown-emitter error. -/
theorem rbfInterpolate_ne_unknown (samples : List ((ℝ × ℝ) × ℝ)) :
    rbfInterpolate samples ≠ Except.error InterpError.unknownEmitter := by
  unfold rbfInterpolate
  split
  · intro hc
    exact InterpError.noConfusion (Except.error.inj hc)
  · split
    · intro hc
      exact InterpError.noConfusion (Except.error.inj hc)
    · split
      · intro hc
        cases hc
      · intro hc
        exact InterpError.noConfusion (Except.error.inj hc)

theorem showHeatmapInterp_ne_unknown (st : Signals) (bssid : String) :
    showHeatmapInterp st bssid ≠ Except.error InterpError.unknownEmitter :=
  rbfInterpolate_ne_unknown _

theorem collectSamples_eq_nil (st : Signals) (bssid : String)
    (h : ∀ pps ∈ st, dictGet bssid pps.2 = none) :
    collectSamples st bssid = [] := by
  unfold collectSamples
  rw [List.filterMap_eq_nil_iff]
  intro pps hpps
  rw [h pps hpps]
  rfl

end InterpLemmas

/-! ## Theorems: contour levels and banding -/

section ContourLemmas

theorem plotContourLevels_eq :
    plotContourLevels = [-85, -75, -65, -55, -45, -35, 0] := by decide

theorem bandFrom_nil (v : ℝ) (lo : ℤ) : bandFrom v lo [] = none := by
  simp only [bandFrom]

theorem bandFrom_cons_pos (v : ℝ) (lo hi : ℤ) (rest : List ℤ)
    (h : (lo : ℝ) ≤ v ∧ (v < (hi : ℝ) ∨ (rest = [] ∧ v ≤ (hi : ℝ)))) :
    bandFrom v lo (hi :: rest) = some 0 := by
  simp only [bandFrom]
  rw [if_pos h]

theorem bandFrom_cons_neg (v : ℝ) (lo hi : ℤ) (rest : List ℤ)
    (h : ¬((lo : ℝ) ≤ v ∧ (v < (hi : ℝ) ∨ (rest = [] ∧ v ≤ (hi : ℝ))))) :
    bandFrom v lo (hi :: rest) = (bandFrom v hi rest).map (· + 1) := by
  simp only [bandFrom]
  rw [if_neg h]

theorem bandOf_plotContourLevels_eq_specBandOf (v : ℝ) (hv : v ≤ 0) :
    bandOf plotContourLevels v = specBandOf v := by
  rw [plotContourLevels_eq]
  show bandFrom v (-85) [-75, -65, -55, -45, -35, 0] = specBandOf v
  unfold specBandOf
  rcases lt_or_le v (-85) with h1 | h1
  · rw [bandFrom_cons_neg _ _ _ _ (by intro hc; simp at hc; rcases hc with ⟨hA, hB⟩; first | linarith | (rcases hB with hB | hB <;> linarith)),
      bandFrom_cons_neg _ _ _ _ (by intro hc; simp at hc; rcases hc with ⟨hA, hB⟩; first | linarith | (rcases hB with hB | hB <;> linarith)),
      bandFrom_cons_neg _ _ _ _ (by intro hc; simp at hc; rcases hc with ⟨hA, hB⟩; first | linarith | (rcases hB with hB | hB <;> linarith)),
      bandFrom_cons_neg _ _ _ _ (by intro hc; simp at hc; rcases hc with ⟨hA, hB⟩; first | linarith | (rcases hB with hB | hB <;> linarith)),
      bandFrom_cons_neg _ _ _ _ (by intro hc; simp at hc; rcases hc with ⟨hA, hB⟩; first | linarith | (rcases hB with hB | hB <;> linarith)),
      bandFrom_cons_neg _ _ _ _ (by intro hc; simp at hc; rcases hc with ⟨hA, hB⟩; first | linarith | (rcases hB with hB | hB <;> linarith)),
      bandFrom_nil, if_pos h1]
    rfl
  · rcases lt_or_le v (-75) with h2 | h2
    · rw [bandFrom_cons_pos _ _ _ _ (by push_cast; exact ⟨h1, Or.inl h2⟩),
        if_neg (by linarith), if_pos h2]
    · rcases lt_or_le v (-65) with h3 | h3
      · rw [bandFrom_cons_neg _ _ _ _
            (by intro hc; simp at hc; rcases hc with ⟨hA, hB⟩; first | linarith | (rcases hB with hB | hB <;> linarith)),
          bandFrom_cons_pos _ _ _ _ (by push_cast; exact ⟨h2, Or.inl h3⟩),
          if_neg (by linarith), if_neg (by linarith), if_pos h3]
        rfl
      · rcases lt_or_le v (-55) with h4 | h4
        · rw [bandFrom_cons_neg _ _ _ _
              (by intro hc; simp at hc; rcases hc with ⟨hA, hB⟩; first | linarith | (rcases hB with hB | hB <;> linarith)),
            bandFrom_cons_neg _ _ _ _
              (by intro hc; simp at hc; rcases hc with ⟨hA, hB⟩; first | linarith | (rcases hB with hB | hB <;> linarith)),
            bandFrom_cons_pos _ _ _ _ (by push_cast; exact ⟨h3, Or.inl h4⟩),
            if_neg (by linarith), if_neg (by linarith), if_neg (by linarith),
            if_pos h4]
          rfl
        · rcases lt_or_le v (-45) with h5 | h5
          · rw [bandFrom_cons_neg _ _ _ _
                (by intro hc; simp at hc; rcases hc with ⟨hA, hB⟩; first | linarith | (rcases hB with hB | hB <;> linarith)),
              bandFrom_cons_neg _ _ _ _
                (by intro hc; simp at hc; rcases hc with ⟨hA, hB⟩; first | linarith | (rcases hB with hB | hB <;> linarith)),
              bandFrom_cons_neg _ _ _ _
                (by intro hc; simp at hc; rcases hc with ⟨hA, hB⟩; first | linarith | (rcases hB with hB | hB <;> linarith)),
              bandFrom_cons_pos _ _ _ _ (by push_cast; exact ⟨h4, Or.inl h5⟩),
              if_neg (by linarith), if_neg (by linarith), if_neg (by linarith),
              if_neg (by linarith), if_pos h5]
            rfl
          · rcases lt_or_le v (-35) with h6 | h6
            · rw [bandFrom_cons_neg _ _ _ _
                  (by intro hc; simp at hc; rcases hc with ⟨hA, hB⟩; first | linarith | (rcases hB with hB | hB <;> linarith)),
                bandFrom_cons_neg _ _ _ _
                  (by intro hc; simp at hc; rcases hc with ⟨hA, hB⟩; first | linarith | (rcases hB with hB | hB <;> linarith)),
                bandFrom_cons_neg _ _ _ _
                  (by intro hc; simp at hc; rcases hc with ⟨hA, hB⟩; first | linarith | (rcases hB with hB | hB <;> linarith)),
                bandFrom_cons_neg _ _ _ _
                  (by intro hc; simp at hc; rcases hc with ⟨hA, hB⟩; first | linarith | (rcases hB with hB | hB <;> linarith)),
                bandFrom_cons_pos _ _ _ _ (by push_cast; exact ⟨h5, Or.inl h6⟩),
                if_neg (by linarith), if_neg (by linarith), if_neg (by linarith),
                if_neg (by linarith), if_neg (by linarith), if_pos h6]
              rfl
            · rw [bandFrom_cons_neg _ _ _ _
                  (by intro hc; simp at hc; rcases hc with ⟨hA, hB⟩; first | linarith | (rcases hB with hB | hB <;> linarith)),
                bandFrom_cons_neg _ _ _ _
                  (by intro hc; simp at hc; rcases hc with ⟨hA, hB⟩; first | linarith | (rcases hB with hB | hB <;> linarith)),
                bandFrom_cons_neg _ _ _ _
                  (by intro hc; simp at hc; rcases hc with ⟨hA, hB⟩; first | linarith | (rcases hB with hB | hB <;> linarith)),
                bandFrom_cons_neg _ _ _ _
                  (by intro hc; simp at hc; rcases hc with ⟨hA, hB⟩; first | linarith | (rcases hB with hB | hB <;> linarith)),
                bandFrom_cons_neg _ _ _ _
                  (by intro hc; simp at hc; rcases hc with ⟨hA, hB⟩; first | linarith | (rcases hB with hB | hB <;> linarith)),
                bandFrom_cons_pos _ _ _ _
                  (by push_cast; exact ⟨h6, Or.inr ⟨rfl, hv⟩⟩),
                if_neg (by linarith), if_neg (by linarith), if_neg (by linarith),
                if_neg (by linarith), if_neg (by linarith), if_neg (by linarith)]
              rfl

theorem bandOf_plotContourLevels_pos (v : ℝ) (hv : 0 < v) :
    bandOf plotContourLevels v = none := by
  rw [plotContourLevels_eq]
  show bandFrom v (-85) [-75, -65, -55, -45, -35, 0] = none
  rw [bandFrom_cons_neg _ _ _ _
      (by intro hc; simp at hc; rcases hc with ⟨hA, hB⟩; first | linarith | (rcases hB with hB | hB <;> linarith)),
    bandFrom_cons_neg _ _ _ _
      (by intro hc; simp at hc; rcases hc with ⟨hA, hB⟩; first | linarith | (rcases hB with hB | hB <;> linarith)),
    bandFrom_cons_neg _ _ _ _
      (by intro hc; simp at hc; rcases hc with ⟨hA, hB⟩; first | linarith | (rcases hB with hB | hB <;> linarith)),
    bandFrom_cons_neg _ _ _ _
      (by intro hc; simp at hc; rcases hc with ⟨hA, hB⟩; first | linarith | (rcases hB with hB | hB <;> linarith)),
    bandFrom_cons_neg _ _ _ _
      (by intro hc; simp at hc; rcases hc with ⟨hA, hB⟩; first | linarith | (rcases hB with hB | hB <;> linarith)),
    bandFrom_cons_neg _ _ _ _
      (by intro hc; simp at hc; rcases hc with ⟨hA, hB⟩; first | linarith | (rcases hB with hB | hB <;> linarith)),
    bandFrom_nil]
  rfl

end ContourLemmas

/-! ## Helper evaluations for concrete witnesses -/

section ConcreteHelpers

theorem edist2_eval (a b c d : ℝ) :
    edist2 (a, b) (c, d) = Real.sqrt ((a - c) ^ 2 + (b - d) ^ 2) := rfl

theorem edist2_00_30 : edist2 ((0 : ℝ), (0 : ℝ)) ((3 : ℝ), (0 : ℝ)) = 3 := by
  rw [edist2_eval,
    show ((0 : ℝ) - 3) ^ 2 + ((0 : ℝ) - 0) ^ 2 = 3 ^ 2 by norm_num,
    Real.sqrt_sq (by norm_num : (0 : ℝ) ≤ 3)]

theorem edist2_30_00 : edist2 ((3 : ℝ), (0 : ℝ)) ((0 : ℝ), (0 : ℝ)) = 3 := by
  rw [edist2_eval,
    show ((3 : ℝ) - 0) ^ 2 + ((0 : ℝ) - 0) ^ 2 = 3 ^ 2 by norm_num,
    Real.sqrt_sq (by norm_num : (0 : ℝ) ≤ 3)]

theorem det_rbfA_twoPoint :
    (rbfA [(((0 : ℝ), (0 : ℝ)), (-40 : ℝ)),
      (((3 : ℝ), (0 : ℝ)), (-60 : ℝ))]).det = -9 := by
  have h := Matrix.det_fin_two
    (rbfA [(((0 : ℝ), (0 : ℝ)), (-40 : ℝ)), (((3 : ℝ), (0 : ℝ)), (-60 : ℝ))])
  rw [show rbfA [(((0 : ℝ), (0 : ℝ)), (-40 : ℝ)), (((3 : ℝ), (0 : ℝ)), (-60 : ℝ))]
      (0 : Fin 2) (0 : Fin 2) = 0 from edist2_self ((0 : ℝ), (0 : ℝ)),
    show rbfA [(((0 : ℝ), (0 : ℝ)), (-40 : ℝ)), (((3 : ℝ), (0 : ℝ)), (-60 : ℝ))]
      (1 : Fin 2) (1 : Fin 2) = 0 from edist2_self ((3 : ℝ), (0 : ℝ)),
    show rbfA [(((0 : ℝ), (0 : ℝ)), (-40 : ℝ)), (((3 : ℝ), (0 : ℝ)), (-60 : ℝ))]
      (0 : Fin 2) (1 : Fin 2) = 3 from edist2_00_30,
    show rbfA [(((0 : ℝ), (0 : ℝ)), (-40 : ℝ)), (((3 : ℝ), (0 : ℝ)), (-60 : ℝ))]
      (1 : Fin 2) (0 : Fin 2) = 3 from edist2_30_00] at h
  norm_num at h
  exact h

end ConcreteHelpers

/-! ## Claim theorems -/

section Claims

/-- C5: inserting two `PointSignals` at the same position (in order
`ps1` then `ps2`) leaves the store identical to inserting `ps2` alone:
the resulting store states are equal, so lookup, enumeration, and
serialization all reflect only `ps2`, and no measurement of `ps1`
survives (`Signals.add_point_signals` is plain dict assignment). -/
theorem c5_last_write_wins (st : Signals) (p : Pos) (ps1 ps2 : PointSignals) :
    add_point_signals (add_point_signals st p ps1) p ps2 =
      add_point_signals st p ps2 ∧
    dictGet p (add_point_signals (add_point_signals st p ps1) p ps2) = some ps2 := by
  constructor
  · exact dictInsert_dictInsert_self p ps1 ps2 st
  · show dictGet p (dictInsert p ps2 (dictInsert p ps1 st)) = some ps2
    rw [dictInsert_dictInsert_self]
    exact dictGet_dictInsert_self p ps2 st

/-- C5 witness: last-write-wins evaluated at a concrete store. -/
theorem c5_last_write_wins_witness :
    add_point_signals (add_point_signals ([] : Signals) (0, 0)
        [("aa", ⟨"Old", "aa", -30⟩)]) (0, 0) [("bb", ⟨"New", "bb", -70⟩)] =
      add_point_signals ([] : Signals) (0, 0) [("bb", ⟨"New", "bb", -70⟩)] ∧
    dictGet (0, 0) (add_point_signals (add_point_signals ([] : Signals) (0, 0)
        [("aa", ⟨"Old", "aa", -30⟩)]) (0, 0) [("bb", ⟨"New", "bb", -70⟩)]) =
      some [("bb", ⟨"New", "bb", -70⟩)] :=
  c5_last_write_wins [] (0, 0) [("aa", ⟨"Old", "aa", -30⟩)]
    [("bb", ⟨"New", "bb", -70⟩)]

/-- C1 counterexample: the claim quantifies over arbitrary emitter
keys, but a key containing `';'` breaks the round-trip.  One insertion
of key `"a;b"` (label `"c"`, strength `-40`) at `(0,0)`: after
`write_csv` then `read_csv`, the content at `(0,0)` holds the truncated
key `"a"`, and the original key `"a;b"` is gone, so the
`position -> {emitter_key: strength}` mapping differs. -/
theorem c1_counterexample :
    content (buildStore [((0, 0), [⟨"c", "a;b", -40⟩])]) (0, 0) "a;b" =
      some (-40) ∧
    (read_csv (write_csv (buildStore [((0, 0), [⟨"c", "a;b", -40⟩])]))).map
        (fun st' => (content st' (0, 0) "a;b", content st' (0, 0) "a")) =
      some (none, some (-40)) := by
  constructor
  · decide
  · decide

/-- C1 (amended): for every store built from a finite sequence of
insertions with no duplicate positions AND whose emitter keys contain
no `';'`, deserializing the serialized store succeeds and reproduces
the `position -> {emitter_key: strength}` mapping exactly. -/
theorem c1_roundtrip (ops : List (Pos × List Signal))
    (hnodup : (ops.map Prod.fst).Nodup)
    (hsemi : ∀ op ∈ ops, ∀ sig ∈ op.2, (';' : Char) ∉ sig.bssid.toList) :
    ∃ st', read_csv (write_csv (buildStore ops)) = some st' ∧
      ∀ p b, content st' p b = content (buildStore ops) p b :=
  content_roundtrip (buildStore ops) (buildStore_wf ops)
    (buildStore_noSemiKeys hsemi)

/-- C1 witness: round-trip at a concrete two-position store. -/
theorem c1_roundtrip_witness :
    ∃ st', read_csv (write_csv (buildStore
        [((0, 0), [⟨"HomeNet", "aa", -40⟩]), ((3, 4), [⟨"Net2", "bb", -60⟩])])) =
      some st' ∧
      ∀ p b, content st' p b = content (buildStore
        [((0, 0), [⟨"HomeNet", "aa", -40⟩]), ((3, 4), [⟨"Net2", "bb", -60⟩])]) p b :=
  c1_roundtrip [((0, 0), [⟨"HomeNet", "aa", -40⟩]), ((3, 4), [⟨"Net2", "bb", -60⟩])]
    (by decide) (by decide)

/-- C10: the header is the join `key;label` (`write_csv`, line 96) and
`read_csv` splits it on the FIRST `';'` (line 108); hence (i) a
`';'`-free key round-trips with its label exactly, labels with `';'`
included; (ii) on a well-formed store with `';'`-free keys every
reconstructed signal carries exactly the label serialized in its
column header; (iii) a key containing `';'` is silently truncated at
its first `';'` on reparse. -/
theorem c10_header_semicolon :
    (∀ k l : String, (';' : Char) ∉ k.toList →
      splitFirst (k ++ ";" ++ l) = some (k, l)) ∧
    (∀ st : Signals, StoreWF st → NoSemiKeys st →
      ∀ st', read_csv (write_csv st) = some st' →
        ∀ p b sig, content2 st p b = some sig →
          ∃ lb, dictGet b (get_all_bssids st) = some lb ∧
            content2 st' p b = some { ssid := lb, bssid := b, rssi := sig.rssi }) ∧
    (∀ k l : String, (';' : Char) ∈ k.toList →
      ∃ r : String × String, splitFirst (k ++ ";" ++ l) = some r ∧
        r.1.toList = k.toList.takeWhile (· ≠ ';') ∧ r.1 ≠ k) := by
  refine ⟨fun k l h => splitFirst_join k l h, ?_,
    fun k l h => splitFirst_join_of_mem k l h⟩
  intro st hwf hsemi st' hread p b sig h2
  obtain ⟨lb, hlb⟩ := content2_key_in_columns st hwf h2
  refine ⟨lb, hlb, ?_⟩
  rw [content2_roundtrip st hwf hsemi p b st' hread, hlb, h2]
  rfl

/-- C10 witness: join/split at concrete headers (a label containing
`';'` survives; a key containing `';'` is truncated), and label
reconstruction on a concrete one-point store. -/
theorem c10_header_semicolon_witness :
    splitFirst ("aa" ++ ";" ++ "My;Net") = some ("aa", "My;Net") ∧
    (∃ r : String × String, splitFirst ("a;b" ++ ";" ++ "c") = some r ∧
      r.1.toList = ("a;b" : String).toList.takeWhile (· ≠ ';') ∧ r.1 ≠ "a;b") ∧
    (∃ lb, dictGet "aa" (get_all_bssids [((0, 0),
        [("aa", ⟨"Home", "aa", -40⟩)])]) = some lb ∧
      content2 [((0, 0), [("aa", ⟨"Home", "aa", -40⟩)])] (0, 0) "aa" =
        some ⟨"Home", "aa", -40⟩) :=
  ⟨c10_header_semicolon.1 "aa" "My;Net" (by decide),
   c10_header_semicolon.2.2 "a;b" "c" (by decide),
   by
    obtain ⟨lb, hlb, _⟩ := c10_header_semicolon.2.1
      [((0, 0), [("aa", ⟨"Home", "aa", -40⟩)])] (by decide) (by decide)
      [((0, 0), [("aa", ⟨"Home", "aa", -40⟩)])] (by decide)
      (0, 0) "aa" ⟨"Home", "aa", -40⟩ (by decide)
    exact ⟨lb, hlb, by decide⟩⟩

/-- C6 counterexample: emitter `"a"` is recorded at `(0,0)` but not at
`(1,1)`; after serializing and reparsing, `"a"` IS present at `(1,1)`
(with strength `-50`), because the key `"a;b"` recorded at `(1,1)` is
truncated to `"a"` by the header split.  So absence is not preserved
for arbitrary stores, only for `';'`-free emitter keys. -/
theorem c6_counterexample :
    content (buildStore [((0, 0), [⟨"lblA", "a", -40⟩]),
        ((1, 1), [⟨"lblF", "a;b", -50⟩])]) (0, 0) "a" = some (-40) ∧
    content (buildStore [((0, 0), [⟨"lblA", "a", -40⟩]),
        ((1, 1), [⟨"lblF", "a;b", -50⟩])]) (1, 1) "a" = none ∧
    (read_csv (write_csv (buildStore [((0, 0), [⟨"lblA", "a", -40⟩]),
        ((1, 1), [⟨"lblF", "a;b", -50⟩])]))).map
      (fun st' => content st' (1, 1) "a") = some (some (-50)) := by
  refine ⟨by decide, by decide, by decide⟩

/-- C6 (amended): (i) `get_all_rssi` returns, for the i-th requested
emitter key, the recorded strength if the key is present at the point
and the absent sentinel `none` otherwise — never a numeric default.
(ii) For every well-formed store whose emitter keys contain no `';'`:
if emitter E is not recorded at position B, then after serializing and
reparsing E is still absent (not zero) at B, because absent strengths
serialize as empty cells and empty cells are skipped on read. -/
theorem c6_absence_preserved :
    (∀ (ps : PointSignals) (bssids : List String) (i : ℕ),
      (get_all_rssi ps bssids).get? i =
        (bssids.get? i).map fun b => (dictGet b ps).map Signal.rssi) ∧
    (∀ st : Signals, StoreWF st → NoSemiKeys st →
      ∀ (E : String) (B : Pos), content st B E = none →
        ∀ st', read_csv (write_csv st) = some st' → content st' B E = none) := by
  constructor
  · intro ps bssids i
    unfold get_all_rssi
    rw [List.get?_map]
  · intro st hwf hsemi E B hB st' hread
    obtain ⟨st'', hread', hcontent⟩ := content_roundtrip st hwf hsemi
    rw [hread] at hread'
    obtain rfl : st' = st'' := Option.some.inj hread'
    rw [hcontent B E]
    exact hB

/-- C6 witness: absence preserved at a concrete store — emitter `"aa"`
is recorded at `(0,0)` but not at `(5,5)`, and stays absent at `(5,5)`
after the round trip; `get_all_rssi` returns `none` for a missing key. -/
theorem c6_absence_preserved_witness :
    ((get_all_rssi [("aa", ⟨"Home", "aa", -40⟩)] ["aa", "bb"]).get? 1 =
      (( ["aa", "bb"] : List String).get? 1).map fun b =>
        (dictGet b [("aa", ⟨"Home", "aa", -40⟩)]).map Signal.rssi) ∧
    content ((buildStore [((0, 0), [⟨"Home", "aa", -40⟩]),
        ((5, 5), [⟨"Other", "bb", -60⟩])]).map fun pps =>
          (pps.1, parsedPoint (get_all_bssids (buildStore
            [((0, 0), [⟨"Home", "aa", -40⟩]), ((5, 5), [⟨"Other", "bb", -60⟩])]))
            pps.2)) (5, 5) "aa" = none :=
  ⟨c6_absence_preserved.1 [("aa", ⟨"Home", "aa", -40⟩)] ["aa", "bb"] 1,
   c6_absence_preserved.2 (buildStore [((0, 0), [⟨"Home", "aa", -40⟩]),
      ((5, 5), [⟨"Other", "bb", -60⟩])]) (by decide) (by decide) "aa" (5, 5)
     (by decide) _
     (read_csv_write_csv (buildStore [((0, 0), [⟨"Home", "aa", -40⟩]),
        ((5, 5), [⟨"Other", "bb", -60⟩])]) (by decide) (by decide))⟩

/-- C7 counterexample: "most-recently-observed label" fails when a
position is re-sampled.  Observations in time order: label "A" for
emitter "e" at (0,0), then "B" at (1,1), then "C" at (0,0) again.  The
dict keeps (0,0) in its original slot, so `get_all_bssids` iterates
(0,0) (label "C") before (1,1) (label "B") and reports "B", while the
most recently observed label is "C". -/
theorem c7_counterexample :
    get_all_bssids (buildStore [((0, 0), [⟨"A", "e", -40⟩]),
        ((1, 1), [⟨"B", "e", -50⟩]), ((0, 0), [⟨"C", "e", -45⟩])]) =
      [("e", "B")] ∧
    mostRecentLabel [((0, 0), [⟨"A", "e", -40⟩]),
        ((1, 1), [⟨"B", "e", -50⟩]), ((0, 0), [⟨"C", "e", -45⟩])] "e" =
      some "C" ∧
    lastLabelIn (buildStore [((0, 0), [⟨"A", "e", -40⟩]),
        ((1, 1), [⟨"B", "e", -50⟩]), ((0, 0), [⟨"C", "e", -45⟩])]) "e" =
      some "B" := by
  refine ⟨by decide, by decide, by decide⟩

/-- C7 (amended): `get_all_bssids` returns each distinct emitter key
exactly once, sorted ascending by key; the key set is exactly the keys
observed at any stored position; and each key `k` is paired with
exactly `lastLabelIn st k` — the ssid of the last signal in the
store's dict-iteration order whose bssid is `k` (the `seen` dict's
last-writer-wins value).  This matches "most recently observed" only
when positions are never re-sampled, since a re-sampled position keeps
its original iteration slot. -/
theorem c7_all_emitters (st : Signals) :
    ((get_all_bssids st).map Prod.fst).Sorted (· ≤ ·) ∧
    ((get_all_bssids st).map Prod.fst).Nodup ∧
    (∀ b : String, b ∈ (get_all_bssids st).map Prod.fst ↔
      ∃ pps ∈ st, ∃ s ∈ pps.2, s.2.bssid = b) ∧
    (∀ k l : String, (k, l) ∈ get_all_bssids st ↔ lastLabelIn st k = some l) := by
  refine ⟨?_, nodupKeys_get_all_bssids st, mem_keys_get_all_bssids st,
    fun k l => mem_get_all_bssids_iff st k l⟩
  have hs := sortByKey_sorted (seenFold st)
  exact List.Pairwise.map Prod.fst (fun a b hab => hab) hs

/-- C7 witness: `get_all_bssids` at a concrete two-emitter store, with
the label-rule instance obtained from the theorem. -/
theorem c7_all_emitters_witness :
    ((get_all_bssids (buildStore [((0, 0), [⟨"N", "bb", -40⟩]),
        ((1, 1), [⟨"M", "aa", -50⟩])])).map Prod.fst).Sorted (· ≤ ·) ∧
    ("aa", "M") ∈ get_all_bssids (buildStore [((0, 0), [⟨"N", "bb", -40⟩]),
        ((1, 1), [⟨"M", "aa", -50⟩])]) :=
  ⟨(c7_all_emitters _).1,
   ((c7_all_emitters _).2.2.2 "aa" "M").2 (by decide)⟩

/-- C3 counterexample: no `UnknownEmitterSelected` rejection exists.
With the empty session store (the only way the GUI can reach a
selection with zero samples, since the dialog lists only recorded
emitters), `show_heatmap` collects zero samples and proceeds straight
into the `Rbf` constructor, which then fails with a `ValueError` from
`np.amax` over the empty axis in the default-`epsilon` computation —
not with `UnknownEmitterSelected`, and not before construction begins. -/
theorem c3_counterexample :
    collectSamples ([] : Signals) "aa" = [] ∧
    showHeatmapInterp ([] : Signals) "aa" =
      Except.error InterpError.valueError ∧
    showHeatmapInterp ([] : Signals) "aa" ≠
      Except.error InterpError.unknownEmitter := by
  refine ⟨rfl, ?_, showHeatmapInterp_ne_unknown _ _⟩
  have h0 : showHeatmapInterp ([] : Signals) "aa" =
      rbfInterpolate ([] : List ((ℝ × ℝ) × ℝ)) := rfl
  rw [h0]
  exact rbfInterpolate_empty

/-- C3 (amended): the code never produces an `UnknownEmitterSelected`
error.  For an emitter key with zero recorded samples the
sample-collection loop yields the empty list, execution proceeds into
the `Rbf` constructor with no prior rejection, and the constructor
fails with a `ValueError` (`np.amax` over an empty axis while
computing the default `epsilon`). -/
theorem c3_no_unknown_emitter_rejection (st : Signals) (bssid : String)
    (h : ∀ pps ∈ st, dictGet bssid pps.2 = none) :
    collectSamples st bssid = [] ∧
    showHeatmapInterp st bssid = Except.error InterpError.valueError ∧
    showHeatmapInterp st bssid ≠ Except.error InterpError.unknownEmitter := by
  have hnil := collectSamples_eq_nil st bssid h
  refine ⟨hnil, ?_, showHeatmapInterp_ne_unknown st bssid⟩
  unfold showHeatmapInterp
  rw [hnil, List.map_nil]
  exact rbfInterpolate_empty

/-- C3 witness: a store holding only emitter `"aa"`, queried for the
never-recorded key `"zz"`. -/
theorem c3_no_unknown_emitter_rejection_witness :
    collectSamples (buildStore [((0, 0), [⟨"Home", "aa", -40⟩])]) "zz" = [] ∧
    showHeatmapInterp (buildStore [((0, 0), [⟨"Home", "aa", -40⟩])]) "zz" =
      Except.error InterpError.valueError ∧
    showHeatmapInterp (buildStore [((0, 0), [⟨"Home", "aa", -40⟩])]) "zz" ≠
      Except.error InterpError.unknownEmitter :=
  c3_no_unknown_emitter_rejection (buildStore [((0, 0), [⟨"Home", "aa", -40⟩])])
    "zz" (by decide)

/-- C4 counterexample: two samples at the same position `(0,0)` with
conflicting strengths, and nothing else.  All positions coincide, so
`Rbf.__init__` raises `ZeroDivisionError` computing the default
`epsilon` (`1.0/edges.size` with the filtered `edges` empty) BEFORE
any matrix or solve exists — not the singular-solve `LinAlgError` the
spec's `IllConditionedInput` names.  (No value is returned either way.) -/
theorem c4_counterexample :
    rbfInterpolate [(((0 : ℝ), (0 : ℝ)), (-40 : ℝ)),
        (((0 : ℝ), (0 : ℝ)), (-50 : ℝ))] =
      Except.error InterpError.zeroDivision ∧
    rbfInterpolate [(((0 : ℝ), (0 : ℝ)), (-40 : ℝ)),
        (((0 : ℝ), (0 : ℝ)), (-50 : ℝ))] ≠
      Except.error InterpError.illConditioned := by
  have h := rbf_pair_same_pos ((0 : ℝ), (0 : ℝ)) (-40 : ℝ) (-50 : ℝ)
  refine ⟨h, fun hc => ?_⟩
  rw [h] at hc
  exact InterpError.noConfusion (Except.error.inj hc)

/-- C4 (amended): a sample set containing two samples at identical
positions never returns a field, but the failure mode splits: if the
sample positions are not all coincident, the two equal rows make the
system matrix exactly singular and `linalg.solve` raises `LinAlgError`
(the spec's `IllConditionedInput`); if all positions coincide, `Rbf`
raises `ZeroDivisionError` computing the default `epsilon`, before any
matrix is built.  In neither case is a numeric value, NaN, or an
arbitrary field returned. -/
theorem c4_duplicate_positions_error (samples : List ((ℝ × ℝ) × ℝ))
    (i j : Fin samples.length) (hij : i ≠ j)
    (hpos : (samples.get i).1 = (samples.get j).1) :
    (¬ allCoincident samples →
      rbfInterpolate samples = Except.error InterpError.illConditioned) ∧
    (allCoincident samples →
      rbfInterpolate samples = Except.error InterpError.zeroDivision) ∧
    ∀ f, rbfInterpolate samples ≠ Except.ok f := by
  have hne : samples.length ≠ 0 := by
    intro h
    have hi := i.2
    omega
  refine ⟨fun hsp => rbf_dup_spread hij hpos hsp,
    fun hco => rbf_all_coincident hne hco, fun f hc => ?_⟩
  by_cases hco : allCoincident samples
  · rw [rbf_all_coincident hne hco] at hc
    cases hc
  · rw [rbf_dup_spread hij hpos hco] at hc
    cases hc

/-- C4 witness: duplicated position `(0,0)` with conflicting strengths
alongside a third sample at `(3,0)`: the set spans a nonzero extent,
so the failure is the singular-solve `LinAlgError`. -/
theorem c4_duplicate_positions_error_witness :
    rbfInterpolate [(((0 : ℝ), (0 : ℝ)), (-40 : ℝ)),
        (((0 : ℝ), (0 : ℝ)), (-50 : ℝ)), (((3 : ℝ), (0 : ℝ)), (-60 : ℝ))] =
      Except.error InterpError.illConditioned :=
  (c4_duplicate_positions_error
    [(((0 : ℝ), (0 : ℝ)), (-40 : ℝ)), (((0 : ℝ), (0 : ℝ)), (-50 : ℝ)),
      (((3 : ℝ), (0 : ℝ)), (-60 : ℝ))]
    ⟨0, by decide⟩ ⟨1, by decide⟩ (by decide) rfl).1
    (by
      intro hco
      have h20 := hco ⟨2, by decide⟩ ⟨0, by decide⟩
      have h3 : (3 : ℝ) = 0 := congrArg Prod.fst h20
      norm_num at h3)

/-- C2 counterexample: the claim covers N = 1 ("at least one sample",
trivially pairwise-distinct), but with a single sample `Rbf.__init__`
raises `ZeroDivisionError` while computing the default `epsilon`
(`edges.size = 0`), before any matrix or solve: no field is returned,
so nothing reproduces the sample. -/
theorem c2_counterexample :
    rbfInterpolate [(((1 : ℝ), (2 : ℝ)), (-40 : ℝ))] =
      Except.error InterpError.zeroDivision :=
  rbfInterpolate_singleton ((1 : ℝ), (2 : ℝ)) (-40 : ℝ)

/-- C2 (amended): for every sample set that survives `Rbf`'s
default-`epsilon` computation (nonempty, positions not all coincident —
which excludes N = 1, where `Rbf` raises `ZeroDivisionError` before
any solve) and whose linear-kernel system matrix is nonsingular, the
construction succeeds and the interpolant reproduces every sample
exactly: `f(x_i, y_i) = z_i` (exact equality in the real-arithmetic
model, hence within any floating-point tolerance). -/
theorem c2_exact_recovery (samples : List ((ℝ × ℝ) × ℝ))
    (hne : samples.length ≠ 0) (hsp : ¬ allCoincident samples)
    (h : (rbfA samples).det ≠ 0) :
    ∃ f, rbfInterpolate samples = Except.ok f ∧
      ∀ i : Fin samples.length, f (samples.get i).1 = (samples.get i).2 :=
  rbfInterpolate_exact hne hsp h

/-- C2 witness: the two-point sample set `(0,0) -> -40`, `(3,0) -> -60`
is nonempty with distinct positions and system matrix `[[0,3],[3,0]]`
of determinant `-9 ≠ 0`, so the interpolant exists and reproduces both
samples exactly. -/
theorem c2_exact_recovery_witness :
    (rbfA [(((0 : ℝ), (0 : ℝ)), (-40 : ℝ)),
        (((3 : ℝ), (0 : ℝ)), (-60 : ℝ))]).det ≠ 0 ∧
    ∃ f, rbfInterpolate [(((0 : ℝ), (0 : ℝ)), (-40 : ℝ)),
        (((3 : ℝ), (0 : ℝ)), (-60 : ℝ))] = Except.ok f ∧
      ∀ i, f (([(((0 : ℝ), (0 : ℝ)), (-40 : ℝ)),
        (((3 : ℝ), (0 : ℝ)), (-60 : ℝ))].get i)).1 =
          (([(((0 : ℝ), (0 : ℝ)), (-40 : ℝ)),
            (((3 : ℝ), (0 : ℝ)), (-60 : ℝ))].get i)).2 := by
  have hne : (rbfA [(((0 : ℝ), (0 : ℝ)), (-40 : ℝ)),
      (((3 : ℝ), (0 : ℝ)), (-60 : ℝ))]).det ≠ 0 := by
    rw [det_rbfA_twoPoint]
    norm_num
  refine ⟨hne, c2_exact_recovery _ (by decide) ?_ hne⟩
  intro hco
  have h01 := hco ⟨0, by decide⟩ ⟨1, by decide⟩
  have h3 : (0 : ℝ) = 3 := congrArg Prod.fst h01
  norm_num at h3

/-- C8 counterexample: with exactly one sample `(0,0) -> -40`, the code
does not return the constant field `-40`: `Rbf.__init__` raises
`ZeroDivisionError` computing the default `epsilon` (`edges.size = 0`)
before the 1×1 matrix is ever formed. -/
theorem c8_counterexample :
    rbfInterpolate [(((0 : ℝ), (0 : ℝ)), (-40 : ℝ))] =
      Except.error InterpError.zeroDivision :=
  rbfInterpolate_singleton ((0 : ℝ), (0 : ℝ)) (-40 : ℝ)

/-- C8 (amended): for every single-sample set, interpolation does not
produce a constant field (or any field): the single position makes
every per-axis extent zero, so `Rbf.__init__` raises
`ZeroDivisionError` (`1.0/edges.size` with `edges.size = 0`) while
computing the default `epsilon`, before the 1×1 system matrix or any
solve is reached. -/
theorem c8_single_sample_error (x y z : ℝ) :
    rbfInterpolate [((x, y), z)] = Except.error InterpError.zeroDivision ∧
    ∀ f, rbfInterpolate [((x, y), z)] ≠ Except.ok f := by
  have h := rbfInterpolate_singleton (x, y) z
  refine ⟨h, fun f hc => ?_⟩
  rw [h] at hc
  cases hc

/-- C8 witness: the single-sample failure evaluated at `(7,9) -> -55`. -/
theorem c8_single_sample_error_witness :
    rbfInterpolate [(((7 : ℝ), (9 : ℝ)), (-55 : ℝ))] =
      Except.error InterpError.zeroDivision :=
  (c8_single_sample_error 7 9 (-55)).1

/-- C9 counterexample: the band above `-35` is not open-ended — the
code appends the extra boundary `0` to the level list, so a field value
of `1` (above `0`) falls in NO band under the code's `contourf` levels,
while the claim's open-ended banding puts it in the top band. -/
theorem c9_counterexample :
    bandOf plotContourLevels (1 : ℝ) = none ∧ specBandOf (1 : ℝ) = some 5 := by
  constructor
  · exact bandOf_plotContourLevels_pos 1 (by norm_num)
  · unfold specBandOf
    norm_num

/-- C9 (amended): the contour levels are the fixed, data-independent
list `[-85, -75, -65, -55, -45, -35, 0]` — `np.arange(-85, -25, 10)`
plus an appended cap at `0`, never derived from the field.  For values
`≤ 0` the resulting banding agrees with the spec's fixed thresholds
with an "above -35" band; but the top band is capped at `0`: values
above `0` fall in no band rather than in an open-ended band. -/
theorem c9_contour_levels (v : ℝ) :
    plotContourLevels = [-85, -75, -65, -55, -45, -35, 0] ∧
    (v ≤ 0 → bandOf plotContourLevels v = specBandOf v) ∧
    (0 < v → bandOf plotContourLevels v = none) :=
  ⟨plotContourLevels_eq,
   fun hv => bandOf_plotContourLevels_eq_specBandOf v hv,
   fun hv => bandOf_plotContourLevels_pos v hv⟩

/-- C9 witness: the banding agreement evaluated at `-40` and the
out-of-band behaviour at `2`. -/
theorem c9_contour_levels_witness :
    ((-40 : ℝ) ≤ 0 ∧ bandOf plotContourLevels (-40 : ℝ) = specBandOf (-40 : ℝ)) ∧
    ((0 : ℝ) < 2 ∧ bandOf plotContourLevels (2 : ℝ) = none) :=
  ⟨⟨by norm_num, (c9_contour_levels (-40)).2.1 (by norm_num)⟩,
   ⟨by norm_num, (c9_contour_levels 2).2.2 (by norm_num)⟩⟩

end Claims

end WifiHeatmap
